import Mathlib

/-!
Verification of the signed-distance-field core (`sdf.rs`): the 1-D squared
Euclidean distance transform `edt1d` (Felzenszwalb–Huttenlocher lower-envelope
construction), the two-pass 2-D transform `edt`, and the top-level `to_sdf`.

Embedding conventions.
The source works on `f64`; we embed its arithmetic exactly over `ℚ` (all
operations used by the transform are field operations and comparisons), and
use `ℝ` only for the final `sqrt`/clamp stage of `to_sdf`.  The sentinel
`INF = 1e20` is the literal rational `10^20`, as in the source.

Two models of the same loops are given, both translated line by line from the
source:
* a pure model (`popPush`, `envLoop`, `advanceK`, `sweepAux`, `edt1dLine`,
  `edt1dG`, `colLoop`, `rowLoop`, `edt`) in which the scratch arrays `v`, `z`,
  `f` are total functions `ℕ → _` (their initial contents are the zero-filled
  allocations of the source, with out-of-range reads giving the allocation
  default `0`), and
* a checked model (`popPushC`, `envLoopC`, `advC`, `sweepC`, `edt1dC`,
  `colLoopC`, `rowLoopC`, `edtC`, `seedLoop`, `sdfGrids`, `toSdf`) in which
  every array is a `List` of exactly the length the source allocates and
  every read or write is bounds-checked; `none` models an out-of-bounds index
  panic.  `to_sdf` is embedded on top of the checked model, so its only
  failure mode is exactly the source's only failure mode.

The source's `while z[k+1] < q` loop in the second sweep is embedded with
explicit fuel in the pure model (`advanceK`, fuel `length`); the correctness
development proves that under the stated hypotheses the loop's stopping
condition is reached strictly before the fuel runs out, so the fueled loop
agrees with the unbounded source loop; the checked model (`advC`) instead
runs until the stop condition or an out-of-bounds read, exactly as the
source does.
-/

namespace Sdf

/-- Sentinel used by the source for plus infinity: `const INF: f64 = 1e20;`. -/
def INF : ℚ := 10 ^ 20

/-- One parabola of the family: `f r + (x - r)^2`, the squared distance to
index `r` weighted by the seed value `f r`. -/
def parab (f : ℕ → ℚ) (r : ℕ) (x : ℚ) : ℚ := f r + (x - (r : ℚ)) ^ 2

/-- Intersection abscissa of the parabolas centered at `q` and at `r`,
exactly as the source computes `s`:
`(f[q] - f[r] + q^2 - r^2) / (2*(q - r))`. -/
def sect (f : ℕ → ℚ) (q r : ℕ) : ℚ :=
  (f q - f r + (q : ℚ) ^ 2 - (r : ℚ) ^ 2) / (2 * ((q : ℚ) - (r : ℚ)))

/-- Envelope state of the construction loop: stack top `k`, parabola vertex
indices `v`, and segment boundary abscissas `z`. -/
structure Env where
  k : ℕ
  v : ℕ → ℕ
  z : ℕ → ℚ

/-- The inner `loop { ... }` of the source for one value of `q`: pop dominated
parabolas (`if s <= z[k] { if k == 0 { break; } k -= 1; }`) and otherwise push
parabola `q` (`k += 1; v[k] = q; z[k] = s; z[k+1] = INF; break;`).
Note the `k == 0` branch leaves the loop **without** pushing `q`, exactly as
in the source. -/
def popPush (f : ℕ → ℚ) (q : ℕ) (k : ℕ) (v : ℕ → ℕ) (z : ℕ → ℚ) : Env :=
  if sect f q (v k) ≤ z k then
    match k with
    | 0 => ⟨0, v, z⟩
    | k' + 1 => popPush f q k' v z
  else
    ⟨k + 1, fun j => if j = k + 1 then q else v j,
      fun j => if j = k + 1 then sect f q (v k) else if j = k + 2 then INF else z j⟩
termination_by k

/-- The `for q in 1..length` envelope construction loop of the source,
running `popPush` for `q`, `q+1`, ..., `L-1`. -/
def envLoop (f : ℕ → ℚ) (L : ℕ) (q : ℕ) (k : ℕ) (v : ℕ → ℕ) (z : ℕ → ℚ) : Env :=
  if hq : q < L then
    let e := popPush f q k v z
    envLoop f L (q + 1) e.k e.v e.z
  else
    ⟨k, v, z⟩
termination_by L - q

/-- Contents of the `v` scratch array at the start of `edt1d` on its first
use: the all-zero allocation with `v[0] = 0` stored. -/
def envInitV : ℕ → ℕ := fun _ => 0

/-- Contents of the `z` scratch array at the start of `edt1d` on its first
use: the all-zero allocation with `z[0] = -INF; z[1] = INF;` stored. -/
def envInitZ : ℕ → ℚ := fun j => if j = 0 then -INF else if j = 1 then INF else 0

/-- The source's `while z[k + 1] < q { k += 1; }`, with explicit fuel. -/
def advanceK (z : ℕ → ℚ) (x : ℚ) : ℕ → ℕ → ℕ
  | 0, k => k
  | fuel + 1, k => if z (k + 1) < x then advanceK z x fuel (k + 1) else k

/-- The second sweep of the source (`for q in 0..length`), producing the list
of outputs `f[r] + (q - r)^2` for `q`, `q+1`, ..., carrying `k` across
iterations; `n` is the number of remaining iterations. -/
def sweepAux (f : ℕ → ℚ) (v : ℕ → ℕ) (z : ℕ → ℚ) (L : ℕ) : ℕ → ℕ → ℕ → List ℚ
  | 0, _, _ => []
  | n + 1, q, k =>
    let k' := advanceK z (q : ℚ) L k
    parab f (v k') (q : ℚ) :: sweepAux f v z L n (q + 1) k'

/-- `edt1d` of the source on one extracted line: copy the line into `f`,
build the lower envelope, then sweep.  Returns the transformed line. -/
def edt1dLine (line : List ℚ) : List ℚ :=
  let L := line.length
  let f : ℕ → ℚ := fun i => line.getD i 0
  let e := envLoop f L 1 0 envInitV envInitZ
  sweepAux f e.v e.z L L 0 0

/-- The strided line `grid[offset + q*stride]` for `q in 0..length`, i.e. the
values the source's copy loop `f[q] = grid[offset + q * stride]` reads. -/
def lineOf (grid : List ℚ) (offset stride length : ℕ) : List ℚ :=
  (List.range length).map fun q => grid.getD (offset + q * stride) 0

/-- Write values back along a strided line:
`grid[offset + q*stride] = vals[q - q0]` for consecutive `q` from `q0`. -/
def writeSeq (offset stride : ℕ) : List ℚ → ℕ → List ℚ → List ℚ
  | g, _, [] => g
  | g, q, a :: as => writeSeq offset stride (g.set (offset + q * stride) a) (q + 1) as

/-- `edt1d` of the source at the grid level: it reads the strided line into
`f`, transforms it, and stores the results back at the same strided
addresses (the sweep reads only `f`, `v`, `z`, never `grid`). -/
def edt1dG (grid : List ℚ) (offset stride length : ℕ) : List ℚ :=
  writeSeq offset stride grid 0 (edt1dLine (lineOf grid offset stride length))

/-- First pass of `edt`: `for x in 0..width { edt1d(data, x, width, height) }`
(every column, stride `width`). -/
def colLoop (w hh : ℕ) (x : ℕ) (g : List ℚ) : List ℚ :=
  if hx : x < w then colLoop w hh (x + 1) (edt1dG g x w hh) else g
termination_by w - x

/-- Second pass of `edt`:
`for y in 0..height { edt1d(data, y * width, 1, width) }` (every row). -/
def rowLoop (w hh : ℕ) (y : ℕ) (g : List ℚ) : List ℚ :=
  if hy : y < hh then rowLoop w hh (y + 1) (edt1dG g (y * w) 1 w) else g
termination_by hh - y

/-- `edt` of the source: transform every column, then every row, in place. -/
def edt (data : List ℚ) (w hh : ℕ) : List ℚ := rowLoop w hh 0 (colLoop w hh 0 data)

/-! ### Checked model: bounds-checked buffers, `none` = index panic -/

/-- Bounds-checked store `l[i] = x`; `none` models the panic the source's
indexed assignment raises when `i` is out of bounds. -/
def setC {α : Type} (l : List α) (i : ℕ) (x : α) : Option (List α) :=
  if i < l.length then some (l.set i x) else none

/-- Checked copy loop `for q in 0..length { f[q] = grid[offset + q*stride] }`. -/
def copyF (grid : List ℚ) (offset stride L : ℕ) (q : ℕ) (f : List ℚ) : Option (List ℚ) :=
  if hq : q < L then do
    let x ← grid[offset + q * stride]?
    let f' ← setC f q x
    copyF grid offset stride L (q + 1) f'
  else some f
termination_by L - q

/-- Checked `popPush`: same control flow, every index read/write checked. -/
def popPushC (f : List ℚ) (q : ℕ) (k : ℕ) (v : List ℕ) (z : List ℚ) :
    Option (ℕ × List ℕ × List ℚ) := do
  let r ← v[k]?
  let fq ← f[q]?
  let fr ← f[r]?
  let zk ← z[k]?
  let s := (fq - fr + (q : ℚ) ^ 2 - (r : ℚ) ^ 2) / (2 * ((q : ℚ) - (r : ℚ)))
  if s ≤ zk then
    match k with
    | 0 => some (0, v, z)
    | k' + 1 => popPushC f q k' v z
  else do
    let v' ← setC v (k + 1) q
    let z' ← setC z (k + 1) s
    let z'' ← setC z' (k + 2) INF
    some (k + 1, v', z'')
termination_by k

/-- Checked envelope construction loop (`for q in 1..length`). -/
def envLoopC (f : List ℚ) (L : ℕ) (q k : ℕ) (v : List ℕ) (z : List ℚ) :
    Option (ℕ × List ℕ × List ℚ) :=
  if hq : q < L then do
    let s ← popPushC f q k v z
    envLoopC f L (q + 1) s.1 s.2.1 s.2.2
  else some (k, v, z)
termination_by L - q

/-- Checked `while z[k + 1] < q { k += 1; }`; runs until the stop condition
or an out-of-bounds read of `z`, exactly as the source does. -/
def advC (z : List ℚ) (x : ℚ) (k : ℕ) : Option ℕ :=
  match hz : z[k + 1]? with
  | none => none
  | some zk1 => if zk1 < x then advC z x (k + 1) else some k
termination_by z.length - k
decreasing_by
  have hk : k + 1 < z.length := (List.getElem?_eq_some_iff.mp hz).1
  omega

/-- Checked second sweep, writing results back into the grid. -/
def sweepC (f : List ℚ) (v : List ℕ) (z : List ℚ) (offset stride L : ℕ) (q k : ℕ)
    (grid : List ℚ) : Option (List ℚ) :=
  if hq : q < L then do
    let k' ← advC z (q : ℚ) k
    let r ← v[k']?
    let fr ← f[r]?
    let g' ← setC grid (offset + q * stride) (fr + ((q : ℚ) - (r : ℚ)) ^ 2)
    sweepC f v z offset stride L (q + 1) k' g'
  else some grid
termination_by L - q

/-- Checked `edt1d`: `v[0] = 0; z[0] = -INF; z[1] = INF;`, copy the line,
build the envelope, sweep.  Returns the updated grid and the scratch buffers
(whose final contents are passed on to the next line, as the source reuses
them). -/
def edt1dC (grid : List ℚ) (offset stride L : ℕ) (f : List ℚ) (v : List ℕ) (z : List ℚ) :
    Option (List ℚ × List ℚ × List ℕ × List ℚ) := do
  let v0 ← setC v 0 0
  let z0 ← setC z 0 (-INF)
  let z1 ← setC z0 1 INF
  let f0 ← copyF grid offset stride L 0 f
  let e ← envLoopC f0 L 1 0 v0 z1
  let g ← sweepC f0 e.2.1 e.2.2 offset stride L 0 0 grid
  some (g, f0, e.2.1, e.2.2)

/-- Checked column pass of `edt`. -/
def colLoopC (w hh : ℕ) (x : ℕ) (grid f : List ℚ) (v : List ℕ) (z : List ℚ) :
    Option (List ℚ × List ℚ × List ℕ × List ℚ) :=
  if hx : x < w then do
    let r ← edt1dC grid x w hh f v z
    colLoopC w hh (x + 1) r.1 r.2.1 r.2.2.1 r.2.2.2
  else some (grid, f, v, z)
termination_by w - x

/-- Checked row pass of `edt`. -/
def rowLoopC (w hh : ℕ) (y : ℕ) (grid f : List ℚ) (v : List ℕ) (z : List ℚ) :
    Option (List ℚ × List ℚ × List ℕ × List ℚ) :=
  if hy : y < hh then do
    let r ← edt1dC grid (y * w) 1 w f v z
    rowLoopC w hh (y + 1) r.1 r.2.1 r.2.2.1 r.2.2.2
  else some (grid, f, v, z)
termination_by hh - y

/-- Checked `edt`: columns first, then rows, threading the scratch buffers. -/
def edtC (grid : List ℚ) (w hh : ℕ) (f : List ℚ) (v : List ℕ) (z : List ℚ) :
    Option (List ℚ × List ℚ × List ℕ × List ℚ) := do
  let c ← colLoopC w hh 0 grid f v z
  rowLoopC w hh 0 c.1 c.2.1 c.2.2.1 c.2.2.2

/-! ### Seeding and the top level `to_sdf` -/

/-- Outer seed of a coverage byte `b`:
`a = b/255`; `0` if `a == 1`, `INF` if `a == 0`, else `(0.5 - a).max(0.0)^2`. -/
def seedOuter (b : ℕ) : ℚ :=
  let a : ℚ := (b : ℚ) / 255
  if a = 1 then 0 else if a = 0 then INF else (max (1 / 2 - a) 0) ^ 2

/-- Inner seed of a coverage byte `b`:
`a = b/255`; `INF` if `a == 1`, `0` if `a == 0`, else `(a - 0.5).max(0.0)^2`. -/
def seedInner (b : ℕ) : ℚ :=
  let a : ℚ := (b : ℚ) / 255
  if a = 1 then INF else if a = 0 then 0 else (max (a - 1 / 2) 0) ^ 2

/-- The seeding loop `for i in 0..width * height` of `to_sdf`, reading
`image_data[i]` (checked: a short input panics exactly here) and storing both
seeds. -/
def seedLoop (cov : List ℕ) (n : ℕ) (i : ℕ) (go gi : List ℚ) : Option (List ℚ × List ℚ) :=
  if hi : i < n then do
    let b ← cov[i]?
    let go' ← setC go i (seedOuter b)
    let gi' ← setC gi i (seedInner b)
    seedLoop cov n (i + 1) go' gi'
  else some (go, gi)
termination_by n - i

/-- `let s = std::cmp::max(width, height);` -/
def scratchS (w hh : ℕ) : ℕ := max w hh

/-- `let mut f = vec![0.0; s];` -/
def scratchF (w hh : ℕ) : List ℚ := List.replicate (scratchS w hh) 0

/-- `let mut z = vec![0.0; s + 1];` -/
def scratchZ (w hh : ℕ) : List ℚ := List.replicate (scratchS w hh + 1) 0

/-- `let mut v = vec![0; s * 2];` -/
def scratchV (w hh : ℕ) : List ℕ := List.replicate (scratchS w hh * 2) 0

/-- The rational-valued part of `to_sdf`: seed both grids, then run `edt` on
`grid_outer` and on `grid_inner`, threading the shared scratch buffers. -/
def sdfGrids (cov : List ℕ) (w hh : ℕ) : Option (List ℚ × List ℚ) := do
  let seeded ← seedLoop cov (w * hh) 0 (List.replicate (w * hh) 0) (List.replicate (w * hh) 0)
  let o ← edtC seeded.1 w hh (scratchF w hh) (scratchV w hh) (scratchZ w hh)
  let i ← edtC seeded.2 w hh o.2.1 o.2.2.1 o.2.2.2
  some (o.1, i.1)

/-- The final combination step for one pixel:
`d = sqrt(outer) - sqrt(inner); value = 0.5 - d / radius;`
`(value * 255.0).clamp(0.0, 255.0) as u8` (the float-to-byte cast truncates
toward zero, which on the clamped nonnegative range is the floor). -/
noncomputable def combinePixel (o i radius : ℚ) : ℕ :=
  let d : ℝ := Real.sqrt (o : ℝ) - Real.sqrt (i : ℝ)
  let value : ℝ := 1 / 2 - d / (radius : ℝ)
  (⌊min (max (value * 255) 0) 255⌋).toNat

/-- `to_sdf`: seeds, two 2-D transforms, then the per-pixel combination into
bytes.  `none` models the only panic the source can raise (an out-of-bounds
index); the returned list models the returned `Vec<u8>`. -/
noncomputable def toSdf (cov : List ℕ) (w hh : ℕ) (radius : ℚ) : Option (List ℕ) :=
  (sdfGrids cov w hh).map fun g =>
    (List.range (w * hh)).map fun i => combinePixel (g.1.getD i 0) (g.2.getD i 0) radius

/-- Horizontal mirror of a row-major `width × height` byte bitmap: pixel
`(x, y)` of the result is pixel `(width - 1 - x, y)` of the input. -/
def hmirror (l : List ℕ) (w hh : ℕ) : List ℕ :=
  (List.range (w * hh)).map fun i => l.getD (i / w * w + (w - 1 - i % w)) 0

/-! ### Hypothesis predicates and loop invariants -/

/-- The line values lie in `[0, INF]` — the range every line processed inside
`to_sdf` actually has (seeds are `0`, `INF`, or a square at most `1/4`, and a
1-D transform only lowers values toward `0`). -/
def ValsIn (f : ℕ → ℚ) (L : ℕ) : Prop := ∀ i, i < L → 0 ≤ f i ∧ f i ≤ INF

/-- Dimension bound under which the sentinel `INF = 1e20` behaves as a true
infinity: every realizable line length satisfies it (a Rust slice holds at
most `isize::MAX = 2^63 - 1` elements). -/
def DimOK (L : ℕ) : Prop := L ≤ 2 ^ 63

/-- All entries of a byte list are actual bytes (`u8` range). -/
def BytesOK (cov : List ℕ) : Prop := ∀ b ∈ cov, b ≤ 255

/-- Vertex stack contents after the envelope loop has processed `q = 1` on the
regression line `[1000, 500, 100, 10, 0]` (parabola `1` pushed, no pop). -/
def regV1 : ℕ → ℕ := fun j => if j = 0 + 1 then 1 else envInitV j

/-- Boundary abscissas after `q = 1` on the regression line:
`z[1] = sect = -499/2`, `z[2] = INF`. -/
def regZ1 : ℕ → ℚ :=
  fun j => if j = 0 + 1 then -499 / 2 else if j = 0 + 2 then INF else envInitZ j

/-- Vertex stack after `q = 2` on the regression line (pushed, no pop). -/
def regV2 : ℕ → ℕ := fun j => if j = 1 + 1 then 2 else regV1 j

/-- Boundary abscissas after `q = 2`: `z[2] = -397/2`, `z[3] = INF`. -/
def regZ2 : ℕ → ℚ :=
  fun j => if j = 1 + 1 then -397 / 2 else if j = 1 + 2 then INF else regZ1 j

/-- Vertex stack after `q = 3` on the regression line (pushed, no pop). -/
def regV3 : ℕ → ℕ := fun j => if j = 2 + 1 then 3 else regV2 j

/-- Boundary abscissas after `q = 3`: `z[3] = -85/2`, `z[4] = INF`. -/
def regZ3 : ℕ → ℚ :=
  fun j => if j = 2 + 1 then -85 / 2 else if j = 2 + 2 then INF else regZ2 j

/-- Vertex stack after `q = 4` on the regression line (pushed, no pop). -/
def regV4 : ℕ → ℕ := fun j => if j = 3 + 1 then 4 else regV3 j

/-- Boundary abscissas after `q = 4`: `z[4] = -3/2`, `z[5] = INF`. -/
def regZ4 : ℕ → ℚ :=
  fun j => if j = 3 + 1 then -3 / 2 else if j = 3 + 2 then INF else regZ3 j

/-- Invariant of the envelope after processing `q = 1, ..., m`: the stack
`v[0..=k]` is strictly increasing with top index at most `m`, `z[0] = -INF`,
`z[k+1] = INF`, the boundaries are monotone, and on each segment
`[z i, z (i+1)]` the parabola `v i` is minimal among all parabolas `0..=m`. -/
structure EnvInv (f : ℕ → ℚ) (m k : ℕ) (v : ℕ → ℕ) (z : ℕ → ℚ) : Prop where
  hv0 : v 0 = 0
  hmono : ∀ i, i < k → v i < v (i + 1)
  hvtop : v k ≤ m
  hz0 : z 0 = -INF
  hztop : z (k + 1) = INF
  hzmono : ∀ i, i ≤ k → z i ≤ z (i + 1)
  hopt : ∀ i, i ≤ k → ∀ x : ℚ, z i ≤ x → x ≤ z (i + 1) →
    ∀ j, j ≤ m → parab f (v i) x ≤ parab f j x

/-- Invariant of an intermediate state of the pop loop while inserting
parabola `q = m + 1`: the remaining stack `v[0..=k]` still satisfies the
segment optimality over `0..=m`, and parabola `q` already dominates all of
`0..=m` on `[z (k+1), INF]` (the region stripped so far). -/
structure PopInv (f : ℕ → ℚ) (m q k : ℕ) (v : ℕ → ℕ) (z : ℕ → ℚ) : Prop where
  hv0 : v 0 = 0
  hmono : ∀ i, i < k → v i < v (i + 1)
  hvtop : v k ≤ m
  hz0 : z 0 = -INF
  hzmono : ∀ i, i < k → z i ≤ z (i + 1)
  hopt : ∀ i, i ≤ k → ∀ x : ℚ, z i ≤ x → x ≤ z (i + 1) →
    ∀ j, j ≤ m → parab f (v i) x ≤ parab f j x
  hdom : ∀ x : ℚ, z (k + 1) ≤ x → x ≤ INF → ∀ j, j ≤ m → parab f q x ≤ parab f j x

/-! ### Basic facts about `parab` and `sect` -/

theorem INF_pos : (0 : ℚ) < INF := by norm_num [INF]

theorem parab_sub_parab (f : ℕ → ℚ) {q r : ℕ} (h : r < q) (x : ℚ) :
    parab f r x - parab f q x = 2 * ((q : ℚ) - (r : ℚ)) * (x - sect f q r) := by
  have hqr : (r : ℚ) < (q : ℚ) := by exact_mod_cast h
  have hne : 2 * ((q : ℚ) - (r : ℚ)) ≠ 0 := by
    have : (0 : ℚ) < (q : ℚ) - (r : ℚ) := by linarith
    positivity
  unfold parab sect
  field_simp
  ring

theorem parab_le_of_sect_le (f : ℕ → ℚ) {q r : ℕ} (h : r < q) {x : ℚ}
    (hx : sect f q r ≤ x) : parab f q x ≤ parab f r x := by
  have hqr : (r : ℚ) < (q : ℚ) := by exact_mod_cast h
  have h0 : 0 ≤ 2 * ((q : ℚ) - (r : ℚ)) * (x - sect f q r) := by
    have h1 : (0 : ℚ) ≤ 2 * ((q : ℚ) - (r : ℚ)) := by linarith
    exact mul_nonneg h1 (by linarith)
  have := parab_sub_parab f h x
  linarith

theorem parab_le_of_le_sect (f : ℕ → ℚ) {q r : ℕ} (h : r < q) {x : ℚ}
    (hx : x ≤ sect f q r) : parab f r x ≤ parab f q x := by
  have hqr : (r : ℚ) < (q : ℚ) := by exact_mod_cast h
  have h0 : 2 * ((q : ℚ) - (r : ℚ)) * (x - sect f q r) ≤ 0 := by
    have h1 : (0 : ℚ) ≤ 2 * ((q : ℚ) - (r : ℚ)) := by linarith
    exact mul_nonpos_of_nonneg_of_nonpos h1 (by linarith)
  have := parab_sub_parab f h x
  linarith

theorem sect_gt_negINF {f : ℕ → ℚ} {L q r : ℕ} (hf : ValsIn f L) (hrq : r < q)
    (hq : q < L) : -INF < sect f q r := by
  have hqr : (r : ℚ) + 1 ≤ (q : ℚ) := by exact_mod_cast hrq
  have hD : (0 : ℚ) < 2 * ((q : ℚ) - (r : ℚ)) := by linarith
  have hfr : 0 ≤ f r ∧ f r ≤ INF := hf r (lt_trans hrq hq)
  have hfq : 0 ≤ f q ∧ f q ≤ INF := hf q hq
  have hsq : (r : ℚ) ^ 2 ≤ (q : ℚ) ^ 2 := by
    have h0r : (0 : ℚ) ≤ (r : ℚ) := Nat.cast_nonneg r
    nlinarith
  rw [sect, lt_div_iff₀ hD]
  nlinarith [INF_pos, hfq.1, hfr.2]

theorem sect_lt_INF {f : ℕ → ℚ} {L q r : ℕ} (hf : ValsIn f L) (hrq : r < q)
    (hq : q < L) (hd : DimOK L) : sect f q r < INF := by
  have hqr : (r : ℚ) + 1 ≤ (q : ℚ) := by exact_mod_cast hrq
  have hD : (0 : ℚ) < 2 * ((q : ℚ) - (r : ℚ)) := by linarith
  have hfr : 0 ≤ f r ∧ f r ≤ INF := hf r (lt_trans hrq hq)
  have hfq : 0 ≤ f q ∧ f q ≤ INF := hf q hq
  have hLq : (q : ℚ) ≤ 2 ^ 63 := by
    have h1 : (q : ℚ) ≤ (L : ℚ) := by exact_mod_cast (le_of_lt hq)
    have h2 : (L : ℚ) ≤ 2 ^ 63 := by exact_mod_cast hd
    linarith
  have hr0 : (0 : ℚ) ≤ (r : ℚ) := Nat.cast_nonneg r
  have hS : (q : ℚ) + (r : ℚ) < INF := by
    rw [INF]
    norm_num
    nlinarith [hLq]
  rw [sect, div_lt_iff₀ hD]
  have hd1 : (1 : ℚ) ≤ (q : ℚ) - (r : ℚ) := by linarith
  nlinarith [INF_pos, hfq.2, hfr.1, mul_le_mul_of_nonneg_right hS.le (by linarith : (0:ℚ) ≤ (q:ℚ) - (r:ℚ)), mul_le_mul_of_nonneg_left hd1 INF_pos.le]

/-! ### Invariant maintenance through the envelope construction -/


theorem chain_le {g : ℕ → ℚ} {k a b : ℕ} (h : ∀ i, i < k → g i ≤ g (i + 1))
    (hab : a ≤ b) (hbk : b ≤ k) : g a ≤ g b := by
  induction b with
  | zero =>
    have ha : a = 0 := Nat.le_zero.mp hab
    subst ha
    exact le_refl _
  | succ b ih =>
    rcases Nat.lt_or_ge a (b + 1) with hab' | hab'
    · have h1 : g a ≤ g b := ih (by omega) (by omega)
      have h2 : g b ≤ g (b + 1) := h b (by omega)
      linarith
    · have ha : a = b + 1 := by omega
      subst ha
      exact le_refl _

theorem PopInv.start {f : ℕ → ℚ} {L m k : ℕ} {v : ℕ → ℕ} {z : ℕ → ℚ}
    (hf : ValsIn f L) (hd : DimOK L) (hq : m + 1 < L)
    (H : EnvInv f m k v z) : PopInv f m (m + 1) k v z where
  hv0 := H.hv0
  hmono := H.hmono
  hvtop := H.hvtop
  hz0 := H.hz0
  hzmono := fun i hi => H.hzmono i (le_of_lt hi)
  hopt := H.hopt
  hdom := by
    intro x hx1 hx2 j hj
    have hxINF : x = INF := le_antisymm hx2 (H.hztop ▸ hx1)
    subst hxINF
    exact parab_le_of_sect_le f (show j < m + 1 by omega)
      (le_of_lt (sect_lt_INF hf (by omega) hq hd))

theorem PopInv.pop {f : ℕ → ℚ} {L m q k : ℕ} {v : ℕ → ℕ} {z : ℕ → ℚ}
    (hq : q < L) (hmq : m + 1 = q)
    (H : PopInv f m q (k + 1) v z) (hc : sect f q (v (k + 1)) ≤ z (k + 1)) :
    PopInv f m q k v z where
  hv0 := H.hv0
  hmono := fun i hi => H.hmono i (by omega)
  hvtop := le_trans (le_of_lt (H.hmono k (by omega))) H.hvtop
  hz0 := H.hz0
  hzmono := fun i hi => H.hzmono i (by omega)
  hopt := fun i hi => H.hopt i (by omega)
  hdom := by
    intro x hx1 hx2 j hj
    rcases le_total x (z (k + 2)) with hcase | hcase
    · have hoptk := H.hopt (k + 1) le_rfl x hx1 hcase j hj
      have hvk1 : v (k + 1) < q := by
        have := H.hvtop
        omega
      have h2 : parab f q x ≤ parab f (v (k + 1)) x :=
        parab_le_of_sect_le f hvk1 (le_trans hc hx1)
      linarith
    · exact H.hdom x hcase hx2 j hj

theorem PopInv.break_absurd {f : ℕ → ℚ} {L m q : ℕ} {v : ℕ → ℕ} {z : ℕ → ℚ}
    (hf : ValsIn f L) (hq : q < L) (hq1 : 1 ≤ q)
    (H : PopInv f m q 0 v z) (hc : sect f q (v 0) ≤ z 0) : False := by
  rw [H.hv0, H.hz0] at hc
  exact absurd hc (not_le.mpr (sect_gt_negINF hf hq1 hq))


theorem PopInv.push {f : ℕ → ℚ} {L m q k : ℕ} {v : ℕ → ℕ} {z : ℕ → ℚ}
    (hf : ValsIn f L) (hd : DimOK L) (hq : q < L) (hmq : m + 1 = q)
    (H : PopInv f m q k v z) (hc : ¬ sect f q (v k) ≤ z k) :
    EnvInv f q (k + 1)
      (fun j => if j = k + 1 then q else v j)
      (fun j => if j = k + 1 then sect f q (v k) else if j = k + 2 then INF else z j) := by
  have hvkq : v k < q := by
    have hvt := H.hvtop
    omega
  have hsINF : sect f q (v k) < INF := sect_lt_INF hf hvkq hq hd
  have hzks : z k < sect f q (v k) := not_le.mp hc
  set s := sect f q (v k) with hsdef
  set v' : ℕ → ℕ := fun j => if j = k + 1 then q else v j with hvD
  set z' : ℕ → ℚ := fun j => if j = k + 1 then s else if j = k + 2 then INF else z j
    with hzD
  have hv'lo : ∀ j, j ≤ k → v' j = v j := by
    intro j hj
    simp only [hvD]
    rw [if_neg (show ¬ (j = k + 1) by omega)]
  have hv'top : v' (k + 1) = q := by
    simp only [hvD]
    simp
  have hz'lo : ∀ j, j ≤ k → z' j = z j := by
    intro j hj
    simp only [hzD]
    rw [if_neg (show ¬ (j = k + 1) by omega), if_neg (show ¬ (j = k + 2) by omega)]
  have hz'mid : z' (k + 1) = s := by
    simp only [hzD]
    simp
  have hz'hi : z' (k + 2) = INF := by
    simp only [hzD]
    rw [if_neg (show ¬ (k + 2 = k + 1) by omega)]
    simp
  have h12 : k + 1 + 1 = k + 2 := by omega
  refine ⟨?_, ?_, ?_, ?_, ?_, ?_, ?_⟩
  · rw [hv'lo 0 (by omega)]
    exact H.hv0
  · intro i hi
    rcases Nat.lt_or_ge i k with hik | hik
    · rw [hv'lo i (by omega), hv'lo (i + 1) (by omega)]
      exact H.hmono i hik
    · obtain rfl : i = k := by omega
      rw [hv'lo i le_rfl, hv'top]
      omega
  · rw [hv'top]
  · rw [hz'lo 0 (by omega)]
    exact H.hz0
  · rw [h12, hz'hi]
  · intro i hi
    rcases Nat.lt_or_ge i k with hik | hik
    · rw [hz'lo i (by omega), hz'lo (i + 1) (by omega)]
      exact H.hzmono i hik
    · rcases Nat.lt_or_ge i (k + 1) with hik1 | hik1
      · obtain rfl : i = k := by omega
        rw [hz'lo i le_rfl, hz'mid]
        exact le_of_lt hzks
      · obtain rfl : i = k + 1 := by omega
        rw [hz'mid, h12, hz'hi]
        exact le_of_lt hsINF
  · intro i hi x hx1 hx2 j hj
    have hjmq : j ≤ m ∨ j = q := by omega
    rcases Nat.lt_or_ge i k with hik | hik
    · rw [hz'lo i (by omega)] at hx1
      rw [hz'lo (i + 1) (by omega)] at hx2
      rw [hv'lo i (by omega)]
      have hxzk : x ≤ z k := le_trans hx2 (chain_le H.hzmono (by omega) le_rfl)
      have hxs : x ≤ s := le_trans hxzk (le_of_lt hzks)
      rcases hjmq with hjm | hjq
      · exact H.hopt i (by omega) x hx1 hx2 j hjm
      · subst hjq
        have h1 : parab f (v i) x ≤ parab f (v k) x :=
          H.hopt i (by omega) x hx1 hx2 (v k) H.hvtop
        have h2 := parab_le_of_le_sect f hvkq hxs
        linarith
    · rcases Nat.lt_or_ge i (k + 1) with hik1 | hik1
      · obtain rfl : i = k := by omega
        rw [hz'lo i le_rfl] at hx1
        rw [hz'mid] at hx2
        rw [hv'lo i le_rfl]
        have hxINF : x ≤ INF := le_trans hx2 (le_of_lt hsINF)
        have hvkx : parab f (v i) x ≤ parab f q x := parab_le_of_le_sect f hvkq hx2
        rcases hjmq with hjm | hjq
        · rcases le_total x (z (i + 1)) with hcase | hcase
          · exact H.hopt i le_rfl x hx1 hcase j hjm
          · have := H.hdom x hcase hxINF j hjm
            linarith
        · subst hjq
          exact hvkx
      · obtain rfl : i = k + 1 := by omega
        rw [hz'mid] at hx1
        rw [h12, hz'hi] at hx2
        rw [hv'top]
        rcases hjmq with hjm | hjq
        · rcases le_total x (z (k + 1)) with hcase | hcase
          · have hzk1x : z k ≤ x := le_trans (le_of_lt hzks) hx1
            have h1 := H.hopt k le_rfl x hzk1x hcase j hjm
            have h2 : parab f q x ≤ parab f (v k) x := parab_le_of_sect_le f hvkq hx1
            linarith
          · exact H.hdom x hcase hx2 j hjm
        · subst hjq
          exact le_refl _

theorem popPush_spec {f : ℕ → ℚ} {L m q : ℕ}
    (hf : ValsIn f L) (hd : DimOK L) (hq : q < L) (hmq : m + 1 = q) :
    ∀ k v z, PopInv f m q k v z →
      EnvInv f q (popPush f q k v z).k (popPush f q k v z).v (popPush f q k v z).z := by
  intro k
  induction k with
  | zero =>
    intro v z H
    rw [popPush]
    by_cases hc : sect f q (v 0) ≤ z 0
    · exact (PopInv.break_absurd hf hq (by omega) H hc).elim
    · simp only [if_neg hc]
      exact PopInv.push hf hd hq hmq H hc
  | succ k ih =>
    intro v z H
    rw [popPush]
    by_cases hc : sect f q (v (k + 1)) ≤ z (k + 1)
    · simp only [if_pos hc]
      exact ih v z (PopInv.pop hq hmq H hc)
    · simp only [if_neg hc]
      exact PopInv.push hf hd hq hmq H hc

theorem envInit_inv (f : ℕ → ℚ) : EnvInv f 0 0 envInitV envInitZ := by
  refine ⟨rfl, ?_, le_refl 0, ?_, ?_, ?_, ?_⟩
  · intro i hi
    exact absurd hi (by omega)
  · simp [envInitZ]
  · simp [envInitZ]
  · intro i hi
    obtain rfl : i = 0 := by omega
    simp only [envInitZ]
    norm_num [INF]
  · intro i hi x hx1 hx2 j hj
    obtain rfl : i = 0 := by omega
    obtain rfl : j = 0 := by omega
    simp [envInitV]

theorem envLoop_inv {f : ℕ → ℚ} {L : ℕ} (hf : ValsIn f L) (hd : DimOK L) :
    ∀ n q k v z, L - q = n → 1 ≤ q → q ≤ L → EnvInv f (q - 1) k v z →
      EnvInv f (L - 1) (envLoop f L q k v z).k (envLoop f L q k v z).v
        (envLoop f L q k v z).z := by
  intro n
  induction n with
  | zero =>
    intro q k v z hn hq1 hqL H
    rw [envLoop, dif_neg (show ¬ (q < L) by omega)]
    have hq : q - 1 = L - 1 := by omega
    rw [← hq]
    exact H
  | succ n ih =>
    intro q k v z hn hq1 hqL H
    rw [envLoop, dif_pos (show q < L by omega)]
    have hP : PopInv f (q - 1) q k v z := by
      have hs := PopInv.start hf hd (show (q - 1) + 1 < L by omega) H
      rwa [show q - 1 + 1 = q by omega] at hs
    have hE : EnvInv f q (popPush f q k v z).k (popPush f q k v z).v (popPush f q k v z).z :=
      popPush_spec hf hd (show q < L by omega) (show q - 1 + 1 = q by omega) _ _ _ hP
    have hrec := ih (q + 1) (popPush f q k v z).k (popPush f q k v z).v (popPush f q k v z).z
      (by omega) (by omega) (by omega) (by rwa [show q + 1 - 1 = q by omega])
    exact hrec

theorem envLoop_full {f : ℕ → ℚ} {L : ℕ} (hf : ValsIn f L) (hd : DimOK L) (hL : 1 ≤ L) :
    EnvInv f (L - 1) (envLoop f L 1 0 envInitV envInitZ).k
      (envLoop f L 1 0 envInitV envInitZ).v (envLoop f L 1 0 envInitV envInitZ).z :=
  envLoop_inv hf hd (L - 1) 1 0 envInitV envInitZ (by omega) le_rfl hL (envInit_inv f)

/-! ### The second sweep computes the lower envelope pointwise minimum -/

theorem EnvInv.self_le_v {f : ℕ → ℚ} {m K : ℕ} {v : ℕ → ℕ} {z : ℕ → ℚ}
    (H : EnvInv f m K v z) : ∀ i, i ≤ K → i ≤ v i := by
  intro i
  induction i with
  | zero => intro _; omega
  | succ i ih =>
    intro hi
    have h1 : i ≤ v i := ih (by omega)
    have h2 : v i < v (i + 1) := H.hmono i (by omega)
    omega

theorem EnvInv.K_le {f : ℕ → ℚ} {m K : ℕ} {v : ℕ → ℕ} {z : ℕ → ℚ}
    (H : EnvInv f m K v z) : K ≤ m :=
  le_trans (H.self_le_v K le_rfl) H.hvtop

theorem EnvInv.v_mono {f : ℕ → ℚ} {m K : ℕ} {v : ℕ → ℕ} {z : ℕ → ℚ}
    (H : EnvInv f m K v z) : ∀ a b, a ≤ b → b ≤ K → v a ≤ v b := by
  intro a b hab hbK
  induction b with
  | zero =>
    obtain rfl : a = 0 := by omega
    exact le_refl _
  | succ b ih =>
    rcases Nat.lt_or_ge a (b + 1) with hab' | hab'
    · have h1 : v a ≤ v b := ih (by omega) (by omega)
      have h2 : v b < v (b + 1) := H.hmono b (by omega)
      omega
    · obtain rfl : a = b + 1 := by omega
      exact le_refl _

theorem advanceK_spec {z : ℕ → ℚ} {K : ℕ} (hztop : z (K + 1) = INF) {x : ℚ}
    (hx : x ≤ INF) :
    ∀ fuel k, k ≤ K → K - k < fuel → z k ≤ x →
      k ≤ advanceK z x fuel k ∧ advanceK z x fuel k ≤ K ∧
      z (advanceK z x fuel k) ≤ x ∧ ¬ z (advanceK z x fuel k + 1) < x := by
  intro fuel
  induction fuel with
  | zero =>
    intro k hk hfuel hzk
    exact absurd hfuel (by omega)
  | succ fuel ih =>
    intro k hk hfuel hzk
    by_cases hc : z (k + 1) < x
    · have hkK : k < K := by
        rcases Nat.lt_or_ge k K with h | h
        · exact h
        · obtain rfl : k = K := by omega
          rw [hztop] at hc
          exact absurd hc (not_lt.mpr hx)
      simp only [advanceK, if_pos hc]
      obtain ⟨h1, h2, h3, h4⟩ := ih (k + 1) (by omega) (by omega) (le_of_lt hc)
      exact ⟨by omega, h2, h3, h4⟩
    · simp only [advanceK, if_neg hc]
      exact ⟨le_rfl, hk, hzk, hc⟩

theorem sweepAux_length (f : ℕ → ℚ) (v : ℕ → ℕ) (z : ℕ → ℚ) (L : ℕ) :
    ∀ n q k, (sweepAux f v z L n q k).length = n := by
  intro n
  induction n with
  | zero => intro q k; rfl
  | succ n ih => intro q k; simp [sweepAux, ih]

theorem sweepAux_spec {f : ℕ → ℚ} {L K : ℕ} {v : ℕ → ℕ} {z : ℕ → ℚ}
    (hE : EnvInv f (L - 1) K v z) (hL : 1 ≤ L) (hd : DimOK L) :
    ∀ n q k, q + n = L → k ≤ K → z k ≤ (q : ℚ) →
      sweepAux f v z L n q k = (List.range' q n).map (fun (t : ℕ) =>
        Finset.inf' (Finset.range L) (Finset.nonempty_range_iff.mpr (by omega))
          (fun r => parab f r ((t : ℕ) : ℚ))) := by
  have hKL : K ≤ L - 1 := hE.K_le
  intro n
  induction n with
  | zero => intro q k _ _ _; rfl
  | succ n ih =>
    intro q k hqn hk hzk
    have hqL : q < L := by omega
    have hxINF : (q : ℚ) ≤ INF := by
      have h1 : (q : ℚ) ≤ (2 : ℚ) ^ 63 := by
        have h2 : (q : ℚ) ≤ (L : ℚ) := by exact_mod_cast le_of_lt hqL
        have hL63 : (L : ℚ) ≤ (2 : ℚ) ^ 63 := by exact_mod_cast hd
        linarith
      have h3 : ((2 : ℚ) ^ 63) ≤ 10 ^ 20 := by norm_num
      rw [INF]
      linarith
    obtain ⟨ha1, ha2, ha3, ha4⟩ :=
      advanceK_spec hE.hztop hxINF L k hk (by omega) hzk
    set k' := advanceK z (q : ℚ) L k with hk'
    have hvk'L : v k' < L := by
      have h1 : v k' ≤ v K := hE.v_mono k' K ha2 le_rfl
      have h2 : v K ≤ L - 1 := hE.hvtop
      omega
    have hval : parab f (v k') (q : ℚ) =
        Finset.inf' (Finset.range L) (Finset.nonempty_range_iff.mpr (by omega))
          (fun r => parab f r (q : ℚ)) := by
      apply le_antisymm
      · apply Finset.le_inf'
        intro b hb
        have hbL : b ≤ L - 1 := by
          have := Finset.mem_range.mp hb
          omega
        exact hE.hopt k' ha2 (q : ℚ) ha3 (not_lt.mp ha4) b hbL
      · exact Finset.inf'_le _ (Finset.mem_range.mpr hvk'L)
    have hznext : z k' ≤ ((q + 1 : ℕ) : ℚ) := by
      push_cast
      linarith
    have hrec := ih (q + 1) k' (by omega) ha2 hznext
    simp only [sweepAux, List.range'_succ, List.map_cons]
    rw [hval, hrec]

theorem edt1dLine_length (line : List ℚ) : (edt1dLine line).length = line.length := by
  rw [edt1dLine]
  exact sweepAux_length _ _ _ _ _ _ _

theorem edt1dLine_correct (line : List ℚ) (hL : 1 ≤ line.length)
    (hf : ValsIn (fun i => line.getD i 0) line.length) (hd : DimOK line.length) :
    edt1dLine line = (List.range line.length).map (fun (t : ℕ) =>
      Finset.inf' (Finset.range line.length) (Finset.nonempty_range_iff.mpr (by omega))
        (fun r => parab (fun i => line.getD i 0) r ((t : ℕ) : ℚ))) := by
  have hE := envLoop_full hf hd hL
  rw [edt1dLine]
  have hz0 : (envLoop (fun i => line.getD i 0) line.length 1 0 envInitV envInitZ).z 0
      ≤ ((0 : ℕ) : ℚ) := by
    rw [hE.hz0]
    norm_num [INF]
  have := sweepAux_spec hE hL hd line.length 0 0 (by omega) (by omega) hz0
  rw [this, List.range_eq_range']

/-! ### Grid-level lemmas: strided reads and write-backs -/

theorem getD_set_ne {α : Type} [Inhabited α] {l : List α} {i j : ℕ} (h : i ≠ j) (x d : α) :
    (l.set i x).getD j d = l.getD j d := by
  rw [List.getD_eq_getElem?_getD, List.getElem?_set_ne h, ← List.getD_eq_getElem?_getD]

theorem getD_set_self {α : Type} [Inhabited α] {l : List α} {i : ℕ} (h : i < l.length)
    (x d : α) : (l.set i x).getD i d = x := by
  rw [List.getD_eq_getElem?_getD, List.getElem?_set_eq_of_lt x h]
  rfl

theorem getD_map_range (F : ℕ → ℚ) {n t : ℕ} (h : t < n) :
    ((List.range n).map F).getD t 0 = F t := by
  rw [List.getD_eq_getElem?_getD, List.getElem?_map, List.getElem?_range h]
  rfl

theorem writeSeq_length (offset stride : ℕ) :
    ∀ vals g q, (writeSeq offset stride g q vals).length = g.length := by
  intro vals
  induction vals with
  | nil => intro g q; rfl
  | cons a as ih =>
    intro g q
    rw [writeSeq, ih, List.length_set]

theorem writeSeq_untouched (offset stride : ℕ) :
    ∀ vals g q j, (∀ t, t < vals.length → j ≠ offset + (q + t) * stride) →
      (writeSeq offset stride g q vals).getD j 0 = g.getD j 0 := by
  intro vals
  induction vals with
  | nil => intro g q j _; rfl
  | cons a as ih =>
    intro g q j hj
    rw [writeSeq, ih _ (q + 1) j]
    · have hj0 : j ≠ offset + q * stride := by
        have := hj 0 (by simp)
        simpa using this
      exact getD_set_ne (fun he => hj0 he.symm) a 0
    · intro t ht
      have := hj (t + 1) (by simp; omega)
      have harith : q + 1 + t = q + (t + 1) := by omega
      rw [harith]
      exact this

theorem writeSeq_hit (offset stride : ℕ) (hst : 1 ≤ stride) :
    ∀ vals g q t, t < vals.length → offset + (q + t) * stride < g.length →
      (writeSeq offset stride g q vals).getD (offset + (q + t) * stride) 0 =
        vals.getD t 0 := by
  intro vals
  induction vals with
  | nil =>
    intro g q t ht
    simp at ht
  | cons a as ih =>
    intro g q t ht hlen
    rcases Nat.eq_zero_or_pos t with rfl | htpos
    · rw [writeSeq]
      rw [writeSeq_untouched]
      · simp only [Nat.add_zero]
        exact getD_set_self (by simpa using hlen) a 0
      · intro u hu heq
        have h3 : (q + 0) * stride < (q + 1 + u) * stride :=
          (Nat.mul_lt_mul_right (show 0 < stride by omega)).mpr (by omega)
        omega
    · obtain ⟨t', rfl⟩ : ∃ t', t = t' + 1 := ⟨t - 1, by omega⟩
      rw [writeSeq]
      have harith : q + (t' + 1) = q + 1 + t' := by omega
      rw [harith] at hlen ⊢
      rw [ih _ (q + 1) t' (by simpa using ht) (by simpa using hlen)]
      rfl

theorem lineOf_length (grid : List ℚ) (offset stride L : ℕ) :
    (lineOf grid offset stride L).length = L := by
  simp [lineOf]

theorem lineOf_getD (grid : List ℚ) (offset stride L : ℕ) {a : ℕ} (ha : a < L) :
    (lineOf grid offset stride L).getD a 0 = grid.getD (offset + a * stride) 0 := by
  rw [lineOf, List.getD_eq_getElem?_getD, List.getElem?_map, List.getElem?_range ha]
  rfl

theorem edt1dG_length (grid : List ℚ) (offset stride L : ℕ) :
    (edt1dG grid offset stride L).length = grid.length := by
  rw [edt1dG, writeSeq_length]

theorem edt1dG_untouched (grid : List ℚ) (offset stride L : ℕ) (j : ℕ)
    (hj : ∀ t, t < L → j ≠ offset + t * stride) :
    (edt1dG grid offset stride L).getD j 0 = grid.getD j 0 := by
  rw [edt1dG, writeSeq_untouched]
  intro t ht
  rw [Nat.zero_add]
  exact hj t (by
    have h1 := edt1dLine_length (lineOf grid offset stride L)
    rw [lineOf_length] at h1
    omega)

theorem edt1dG_hit (grid : List ℚ) (offset stride L : ℕ) (hst : 1 ≤ stride)
    (hL : 1 ≤ L) (hd : DimOK L)
    (hbound : ∀ t, t < L → offset + t * stride < grid.length)
    (hvals : ∀ t, t < L → 0 ≤ grid.getD (offset + t * stride) 0 ∧
      grid.getD (offset + t * stride) 0 ≤ INF)
    {t : ℕ} (ht : t < L) :
    (edt1dG grid offset stride L).getD (offset + t * stride) 0 =
      Finset.inf' (Finset.range L) (Finset.nonempty_range_iff.mpr (by omega))
        (fun r => grid.getD (offset + r * stride) 0 + ((t : ℚ) - (r : ℚ)) ^ 2) := by
  have hlen : (edt1dLine (lineOf grid offset stride L)).length = L := by
    rw [edt1dLine_length, lineOf_length]
  have hfv : ValsIn (fun i => (lineOf grid offset stride L).getD i 0)
      (lineOf grid offset stride L).length := by
    intro i hi
    rw [lineOf_length] at hi
    show 0 ≤ (lineOf grid offset stride L).getD i 0 ∧
      (lineOf grid offset stride L).getD i 0 ≤ INF
    rw [lineOf_getD grid offset stride L hi]
    exact hvals i hi
  have hcor := edt1dLine_correct (lineOf grid offset stride L)
    (by rw [lineOf_length]; omega) hfv (by rw [lineOf_length]; exact hd)
  rw [edt1dG]
  have hw := writeSeq_hit offset stride hst (edt1dLine (lineOf grid offset stride L))
    grid 0 t (by omega) (by simpa using hbound t ht)
  simp only [Nat.zero_add] at hw
  rw [hw, hcor]
  have ht2 : t < (lineOf grid offset stride L).length := by
    rw [lineOf_length]
    exact ht
  rw [getD_map_range _ ht2]
  simp only [lineOf_length]
  apply Finset.inf'_congr _ rfl
  intro r hr
  have hrL : r < L := Finset.mem_range.mp hr
  rw [parab, lineOf_getD grid offset stride L hrL]

/-! ### The column pass and the row pass of `edt` -/

theorem idx_col_lt {w h x t : ℕ} (hx : x < w) (ht : t < h) : x + t * w < w * h := by
  have h1 : t * w ≤ (h - 1) * w := Nat.mul_le_mul_right w (by omega)
  have h2 : (h - 1) * w + w = h * w := by
    have h3 : h - 1 + 1 = h := by omega
    calc (h - 1) * w + w = (h - 1 + 1) * w := by ring
    _ = h * w := by rw [h3]
  have h4 : h * w = w * h := Nat.mul_comm h w
  omega

theorem idx_row_lt {w h y t : ℕ} (hy : y < h) (ht : t < w) : y * w + t < w * h := by
  have h1 : y * w ≤ (h - 1) * w := Nat.mul_le_mul_right w (by omega)
  have h2 : (h - 1) * w + w = h * w := by
    have h3 : h - 1 + 1 = h := by omega
    calc (h - 1) * w + w = (h - 1 + 1) * w := by ring
    _ = h * w := by rw [h3]
  have h4 : h * w = w * h := Nat.mul_comm h w
  omega

theorem col_untouched {w h x a b : ℕ} (hx : x < w) (ha : a < w) (hne : a ≠ x)
    (g : List ℚ) :
    (edt1dG g x w h).getD (b * w + a) 0 = g.getD (b * w + a) 0 := by
  apply edt1dG_untouched
  intro t ht heq
  have h1 : (b * w + a) % w = a := by
    rw [Nat.add_comm, Nat.add_mul_mod_self_right]
    exact Nat.mod_eq_of_lt ha
  have h2 : (x + t * w) % w = x := by
    rw [Nat.add_mul_mod_self_right]
    exact Nat.mod_eq_of_lt hx
  rw [heq, h2] at h1
  exact hne h1.symm

theorem col_hit {w h x b : ℕ} (hx : x < w) (hb : b < h) (hd : DimOK h)
    (g : List ℚ) (hlen : g.length = w * h)
    (hvals : ∀ i, i < w * h → 0 ≤ g.getD i 0 ∧ g.getD i 0 ≤ INF) :
    (edt1dG g x w h).getD (b * w + x) 0 =
      Finset.inf' (Finset.range h) (Finset.nonempty_range_iff.mpr (by omega))
        (fun q => g.getD (q * w + x) 0 + ((b : ℚ) - (q : ℚ)) ^ 2) := by
  have hb1 : ∀ t, t < h → x + t * w < g.length := by
    intro t ht
    rw [hlen]
    exact idx_col_lt hx ht
  have hv1 : ∀ t, t < h → 0 ≤ g.getD (x + t * w) 0 ∧ g.getD (x + t * w) 0 ≤ INF := by
    intro t ht
    exact hvals _ (idx_col_lt hx ht)
  have hhit := edt1dG_hit g x w h (by omega) (by omega) hd hb1 hv1 hb
  rw [Nat.add_comm (b * w) x, hhit]
  apply Finset.inf'_congr _ rfl
  intro q _
  rw [Nat.add_comm x (q * w)]

theorem row_untouched {w h y a b : ℕ} (hy : y < h) (ha : a < w) (hb : b < h) (hne : b ≠ y)
    (g : List ℚ) :
    (edt1dG g (y * w) 1 w).getD (b * w + a) 0 = g.getD (b * w + a) 0 := by
  apply edt1dG_untouched
  intro t ht heq
  have hw1 : 0 < w := by omega
  have h1 : (b * w + a) / w = b := by
    rw [Nat.add_comm, Nat.add_mul_div_right a b hw1]
    rw [Nat.div_eq_of_lt ha]
    omega
  have h2 : (y * w + t * 1) / w = y := by
    rw [Nat.mul_one, Nat.add_comm, Nat.add_mul_div_right t y hw1]
    rw [Nat.div_eq_of_lt ht]
    omega
  rw [heq, h2] at h1
  exact hne h1.symm

theorem row_hit {w h y a : ℕ} (hy : y < h) (ha : a < w) (hd : DimOK w)
    (g : List ℚ) (hlen : g.length = w * h)
    (hvals : ∀ i, i < w * h → 0 ≤ g.getD i 0 ∧ g.getD i 0 ≤ INF) :
    (edt1dG g (y * w) 1 w).getD (y * w + a) 0 =
      Finset.inf' (Finset.range w) (Finset.nonempty_range_iff.mpr (by omega))
        (fun p => g.getD (y * w + p) 0 + ((a : ℚ) - (p : ℚ)) ^ 2) := by
  have hb1 : ∀ t, t < w → y * w + t * 1 < g.length := by
    intro t ht
    rw [hlen, Nat.mul_one]
    exact idx_row_lt hy ht
  have hv1 : ∀ t, t < w → 0 ≤ g.getD (y * w + t * 1) 0 ∧ g.getD (y * w + t * 1) 0 ≤ INF := by
    intro t ht
    have hidx : y * w + t * 1 < w * h := by
      rw [Nat.mul_one]
      exact idx_row_lt hy ht
    exact hvals _ hidx
  have hhit := edt1dG_hit g (y * w) 1 w (by omega) (by omega) hd hb1 hv1 ha
  rw [show y * w + a = y * w + a * 1 by omega, hhit]
  apply Finset.inf'_congr _ rfl
  intro p _
  rw [Nat.mul_one]

theorem inf'_add_const {s : Finset ℕ} (H : s.Nonempty) (f : ℕ → ℚ) (c : ℚ) :
    s.inf' H f + c = s.inf' H (fun b => f b + c) := by
  apply le_antisymm
  · apply Finset.le_inf'
    intro b hb
    exact add_le_add_right (Finset.inf'_le f hb) c
  · obtain ⟨b0, hb0, he⟩ := Finset.exists_mem_eq_inf' H f
    rw [he]
    exact Finset.inf'_le _ hb0

theorem colmin_bounds {w h a b : ℕ} (ha : a < w) (hb : b < h) (g : List ℚ)
    (hlen : g.length = w * h)
    (hvals : ∀ i, i < w * h → 0 ≤ g.getD i 0 ∧ g.getD i 0 ≤ INF) :
    0 ≤ Finset.inf' (Finset.range h) (Finset.nonempty_range_iff.mpr (by omega))
        (fun q => g.getD (q * w + a) 0 + ((b : ℚ) - (q : ℚ)) ^ 2) ∧
      Finset.inf' (Finset.range h) (Finset.nonempty_range_iff.mpr (by omega))
        (fun q => g.getD (q * w + a) 0 + ((b : ℚ) - (q : ℚ)) ^ 2) ≤ INF := by
  constructor
  · apply Finset.le_inf'
    intro q hq
    have hqh : q < h := Finset.mem_range.mp hq
    have hidx : q * w + a < w * h := by
      have := idx_col_lt ha hqh
      omega
    have := (hvals _ hidx).1
    have hsq : (0 : ℚ) ≤ ((b : ℚ) - (q : ℚ)) ^ 2 := sq_nonneg _
    linarith
  · have hmem : b ∈ Finset.range h := Finset.mem_range.mpr hb
    refine le_trans (Finset.inf'_le _ hmem) ?_
    have hidx : b * w + a < w * h := by
      have := idx_col_lt ha hb
      omega
    have := (hvals _ hidx).2
    simp only [sub_self]
    rw [zero_pow (by norm_num : 2 ≠ 0), add_zero]
    exact this

theorem colLoop_spec {w h : ℕ} (hh : 1 ≤ h) (hd : DimOK h) :
    ∀ n x0 g, w - x0 = n → g.length = w * h →
      (∀ i, i < w * h → 0 ≤ g.getD i 0 ∧ g.getD i 0 ≤ INF) →
      (colLoop w h x0 g).length = w * h ∧
      (∀ a b, a < w → b < h → a < x0 →
        (colLoop w h x0 g).getD (b * w + a) 0 = g.getD (b * w + a) 0) ∧
      (∀ a b, a < w → b < h → x0 ≤ a →
        (colLoop w h x0 g).getD (b * w + a) 0 =
          Finset.inf' (Finset.range h) (Finset.nonempty_range_iff.mpr (by omega))
            (fun q => g.getD (q * w + a) 0 + ((b : ℚ) - (q : ℚ)) ^ 2)) := by
  intro n
  induction n with
  | zero =>
    intro x0 g hn hlen hvals
    rw [colLoop, dif_neg (show ¬ (x0 < w) by omega)]
    exact ⟨hlen, fun a b _ _ _ => rfl, fun a b ha _ hax => absurd hax (by omega)⟩
  | succ n ih =>
    intro x0 g hn hlen hvals
    have hx0 : x0 < w := by omega
    rw [colLoop, dif_pos hx0]
    have hlen' : (edt1dG g x0 w h).length = w * h := by
      rw [edt1dG_length]
      exact hlen
    have hvals' : ∀ i, i < w * h →
        0 ≤ (edt1dG g x0 w h).getD i 0 ∧ (edt1dG g x0 w h).getD i 0 ≤ INF := by
      intro i hi
      have hw0 : 0 < w := by omega
      have hdm := Nat.div_add_mod i w
      set a := i % w with hadef
      set b := i / w with hbdef
      have ha : a < w := Nat.mod_lt i hw0
      have hb : b < h := by
        rw [hbdef]
        rw [Nat.div_lt_iff_lt_mul hw0]
        have : w * h = h * w := Nat.mul_comm w h
        omega
      have hi_eq : i = b * w + a := by
        rw [Nat.mul_comm b w]
        omega
      rw [hi_eq]
      by_cases hax : a = x0
      · subst hax
        rw [col_hit ha hb hd g hlen hvals]
        exact colmin_bounds ha hb g hlen hvals
      · rw [col_untouched hx0 ha hax g]
        rw [← hi_eq]
        exact hvals i hi
    obtain ⟨ihl, ihu, iht⟩ := ih (x0 + 1) (edt1dG g x0 w h) (by omega) hlen' hvals'
    refine ⟨ihl, ?_, ?_⟩
    · intro a b ha hb hax
      rw [ihu a b ha hb (by omega), col_untouched hx0 ha (by omega) g]
    · intro a b ha hb hax
      rcases Nat.eq_or_lt_of_le hax with heq | hax'
      · rw [← heq] at ha ⊢
        rw [ihu x0 b ha hb (by omega)]
        exact col_hit ha hb hd g hlen hvals
      · rw [iht a b ha hb (by omega)]
        apply Finset.inf'_congr _ rfl
        intro q _
        rw [col_untouched hx0 ha (by omega) g]

theorem rowLoop_spec {w h : ℕ} (hw : 1 ≤ w) (hd : DimOK w) :
    ∀ n y0 g, h - y0 = n → g.length = w * h →
      (∀ i, i < w * h → 0 ≤ g.getD i 0 ∧ g.getD i 0 ≤ INF) →
      (rowLoop w h y0 g).length = w * h ∧
      (∀ a b, a < w → b < h → b < y0 →
        (rowLoop w h y0 g).getD (b * w + a) 0 = g.getD (b * w + a) 0) ∧
      (∀ a b, a < w → b < h → y0 ≤ b →
        (rowLoop w h y0 g).getD (b * w + a) 0 =
          Finset.inf' (Finset.range w) (Finset.nonempty_range_iff.mpr (by omega))
            (fun p => g.getD (b * w + p) 0 + ((a : ℚ) - (p : ℚ)) ^ 2)) := by
  intro n
  induction n with
  | zero =>
    intro y0 g hn hlen hvals
    rw [rowLoop, dif_neg (show ¬ (y0 < h) by omega)]
    exact ⟨hlen, fun a b _ _ _ => rfl, fun a b _ hb hby => absurd hby (by omega)⟩
  | succ n ih =>
    intro y0 g hn hlen hvals
    have hy0 : y0 < h := by omega
    rw [rowLoop, dif_pos hy0]
    have hlen' : (edt1dG g (y0 * w) 1 w).length = w * h := by
      rw [edt1dG_length]
      exact hlen
    have hrowmin_bounds : ∀ a b, a < w → b < h →
        0 ≤ Finset.inf' (Finset.range w) (Finset.nonempty_range_iff.mpr (by omega))
          (fun p => g.getD (b * w + p) 0 + ((a : ℚ) - (p : ℚ)) ^ 2) ∧
        Finset.inf' (Finset.range w) (Finset.nonempty_range_iff.mpr (by omega))
          (fun p => g.getD (b * w + p) 0 + ((a : ℚ) - (p : ℚ)) ^ 2) ≤ INF := by
      intro a b ha hb
      constructor
      · apply Finset.le_inf'
        intro p hp
        have hpw : p < w := Finset.mem_range.mp hp
        have hidx : b * w + p < w * h := idx_row_lt hb hpw
        have := (hvals _ hidx).1
        have hsq : (0 : ℚ) ≤ ((a : ℚ) - (p : ℚ)) ^ 2 := sq_nonneg _
        linarith
      · have hmem : a ∈ Finset.range w := Finset.mem_range.mpr ha
        refine le_trans (Finset.inf'_le _ hmem) ?_
        have hidx : b * w + a < w * h := idx_row_lt hb ha
        have := (hvals _ hidx).2
        simp only [sub_self]
        rw [zero_pow (by norm_num : 2 ≠ 0), add_zero]
        exact this
    have hvals' : ∀ i, i < w * h →
        0 ≤ (edt1dG g (y0 * w) 1 w).getD i 0 ∧ (edt1dG g (y0 * w) 1 w).getD i 0 ≤ INF := by
      intro i hi
      have hw0 : 0 < w := by omega
      have hdm := Nat.div_add_mod i w
      set a := i % w with hadef
      set b := i / w with hbdef
      have ha : a < w := Nat.mod_lt i hw0
      have hb : b < h := by
        rw [hbdef]
        rw [Nat.div_lt_iff_lt_mul hw0]
        have : w * h = h * w := Nat.mul_comm w h
        omega
      have hi_eq : i = b * w + a := by
        rw [Nat.mul_comm b w]
        omega
      rw [hi_eq]
      by_cases hby : b = y0
      · subst hby
        rw [row_hit hb ha hd g hlen hvals]
        exact hrowmin_bounds a b ha hb
      · rw [row_untouched hy0 ha hb hby g]
        rw [← hi_eq]
        exact hvals i hi
    obtain ⟨ihl, ihu, iht⟩ := ih (y0 + 1) (edt1dG g (y0 * w) 1 w) (by omega) hlen' hvals'
    refine ⟨ihl, ?_, ?_⟩
    · intro a b ha hb hby
      rw [ihu a b ha hb (by omega), row_untouched hy0 ha hb (by omega) g]
    · intro a b ha hb hby
      rcases Nat.eq_or_lt_of_le hby with heq | hby'
      · rw [← heq] at hb ⊢
        rw [ihu a y0 ha hb (by omega)]
        exact row_hit hb ha hd g hlen hvals
      · rw [iht a b ha hb (by omega)]
        apply Finset.inf'_congr _ rfl
        intro p hp
        rw [row_untouched hy0 (Finset.mem_range.mp hp) hb (by omega) g]

theorem edt_correct {w h : ℕ} (g : List ℚ) (hw : 1 ≤ w) (hh : 1 ≤ h)
    (hdw : DimOK w) (hdh : DimOK h) (hlen : g.length = w * h)
    (hvals : ∀ i, i < w * h → 0 ≤ g.getD i 0 ∧ g.getD i 0 ≤ INF)
    {x y : ℕ} (hx : x < w) (hy : y < h) :
    (edt g w h).getD (y * w + x) 0 =
      Finset.inf' (Finset.range w ×ˢ Finset.range h)
        ((Finset.nonempty_range_iff.mpr (by omega)).product
          (Finset.nonempty_range_iff.mpr (by omega)))
        (fun p => g.getD (p.2 * w + p.1) 0 + ((x : ℚ) - (p.1 : ℚ)) ^ 2 +
          ((y : ℚ) - (p.2 : ℚ)) ^ 2) := by
  obtain ⟨cl, cu, ct⟩ := colLoop_spec hh hdh w 0 g (by omega) hlen hvals
  have hvalsC : ∀ i, i < w * h →
      0 ≤ (colLoop w h 0 g).getD i 0 ∧ (colLoop w h 0 g).getD i 0 ≤ INF := by
    intro i hi
    have hw0 : 0 < w := by omega
    have hdm := Nat.div_add_mod i w
    set a := i % w with hadef
    set b := i / w with hbdef
    have ha : a < w := Nat.mod_lt i hw0
    have hb : b < h := by
      rw [hbdef, Nat.div_lt_iff_lt_mul hw0]
      have hcomm : w * h = h * w := Nat.mul_comm w h
      omega
    have hi_eq : i = b * w + a := by
      rw [Nat.mul_comm b w]
      omega
    rw [hi_eq, ct a b ha hb (by omega)]
    exact colmin_bounds ha hb g hlen hvals
  obtain ⟨rl, ru, rt⟩ := rowLoop_spec hw hdw h 0 (colLoop w h 0 g) (by omega) cl hvalsC
  rw [edt, rt x y hx hy (by omega)]
  have hstep : ∀ p, p ∈ Finset.range w →
      (colLoop w h 0 g).getD (y * w + p) 0 + ((x : ℚ) - (p : ℚ)) ^ 2 =
      Finset.inf' (Finset.range h) (Finset.nonempty_range_iff.mpr (by omega))
        (fun q => g.getD (q * w + p) 0 + ((y : ℚ) - (q : ℚ)) ^ 2 +
          ((x : ℚ) - (p : ℚ)) ^ 2) := by
    intro p hp
    rw [ct p y (Finset.mem_range.mp hp) hy (by omega), inf'_add_const]
  rw [Finset.inf'_congr _ rfl hstep, Finset.inf'_product_left]
  apply Finset.inf'_congr _ rfl
  intro p _
  apply Finset.inf'_congr _ rfl
  intro q _
  ring

/-! ### Simulation: the checked model agrees with the pure model -/

theorem getElem?_eq_some_getD {α : Type} [Inhabited α] {l : List α} {i : ℕ} (d : α)
    (h : i < l.length) : l[i]? = some (l.getD i d) := by
  rw [List.getElem?_eq_getElem h, List.getD_eq_getElem?_getD, List.getElem?_eq_getElem h]
  rfl

theorem setC_some {α : Type} {l : List α} {i : ℕ} (x : α) (h : i < l.length) :
    setC l i x = some (l.set i x) := by
  rw [setC, if_pos h]

theorem PopInv.k_le {f : ℕ → ℚ} {m q k : ℕ} {v : ℕ → ℕ} {z : ℕ → ℚ}
    (H : PopInv f m q k v z) : k ≤ m := by
  have hs : ∀ i, i ≤ k → i ≤ v i := by
    intro i
    induction i with
    | zero => intro _; omega
    | succ i ih =>
      intro hi
      have h1 := ih (by omega)
      have h2 := H.hmono i (by omega)
      omega
  exact le_trans (hs k le_rfl) H.hvtop

theorem copyF_spec (grid : List ℚ) (offset stride L : ℕ)
    (hbound : ∀ t, t < L → offset + t * stride < grid.length) :
    ∀ n q fl, L - q = n → L ≤ fl.length →
      ∃ fl', copyF grid offset stride L q fl = some fl' ∧
        fl'.length = fl.length ∧
        (∀ i, q ≤ i → i < L → fl'.getD i 0 = grid.getD (offset + i * stride) 0) ∧
        (∀ i, i < q → fl'.getD i 0 = fl.getD i 0) := by
  intro n
  induction n with
  | zero =>
    intro q fl hn hfl
    rw [copyF, dif_neg (show ¬ (q < L) by omega)]
    exact ⟨fl, rfl, rfl, fun i hqi hiL => absurd hqi (by omega), fun i _ => rfl⟩
  | succ n ih =>
    intro q fl hn hfl
    have hqL : q < L := by omega
    rw [copyF, dif_pos hqL]
    rw [getElem?_eq_some_getD 0 (hbound q hqL)]
    simp only [Option.bind_eq_bind, Option.some_bind]
    rw [setC_some _ (by omega)]
    simp only [Option.some_bind]
    obtain ⟨fl', heq, hlen, hhi, hlo⟩ :=
      ih (q + 1) (fl.set q (grid.getD (offset + q * stride) 0)) (by omega)
        (by rw [List.length_set]; omega)
    refine ⟨fl', heq, by rw [hlen, List.length_set], ?_, ?_⟩
    · intro i hqi hiL
      rcases Nat.eq_or_lt_of_le hqi with heqi | hqi'
      · rw [← heqi] at hiL ⊢
        rw [hlo q (by omega), getD_set_self (by omega) _ 0]
      · exact hhi i (by omega) hiL
    · intro i hiq
      rw [hlo i (by omega), getD_set_ne (by omega) _ 0]

theorem popPushC_spec {L m q : ℕ} {f : ℕ → ℚ} {v : ℕ → ℕ} {z : ℕ → ℚ}
    (hq : q < L) (hmq : m + 1 = q) :
    ∀ k (fl : List ℚ) (vl : List ℕ) (zl : List ℚ),
      PopInv f m q k v z →
      L ≤ fl.length → L ≤ vl.length → L + 1 ≤ zl.length →
      (∀ i, i < L → fl.getD i 0 = f i) →
      (∀ j, j ≤ k → vl.getD j 0 = v j) →
      (∀ j, j ≤ k + 1 → zl.getD j 0 = z j) →
      ∃ vl' zl', popPushC fl q k vl zl = some ((popPush f q k v z).k, vl', zl') ∧
        vl'.length = vl.length ∧ zl'.length = zl.length ∧
        (∀ j, j ≤ (popPush f q k v z).k → vl'.getD j 0 = (popPush f q k v z).v j) ∧
        (∀ j, j ≤ (popPush f q k v z).k + 1 →
          zl'.getD j 0 = (popPush f q k v z).z j) := by
  intro k
  induction k with
  | zero =>
    intro fl vl zl H hfl hvl hzl hfrel hvrel hzrel
    have hv0L : v 0 < L := by
      have hvt := H.hvtop
      omega
    rw [popPushC]
    rw [getElem?_eq_some_getD 0 (show 0 < vl.length by omega), hvrel 0 le_rfl]
    simp only [Option.bind_eq_bind, Option.some_bind]
    rw [getElem?_eq_some_getD 0 (show q < fl.length by omega), hfrel q hq]
    simp only [Option.some_bind]
    rw [getElem?_eq_some_getD 0 (show v 0 < fl.length by omega), hfrel (v 0) hv0L]
    simp only [Option.some_bind]
    rw [getElem?_eq_some_getD 0 (show 0 < zl.length by omega), hzrel 0 (by omega)]
    simp only [Option.some_bind]
    have hsect : (f q - f (v 0) + (q : ℚ) ^ 2 - ((v 0 : ℕ) : ℚ) ^ 2) /
        (2 * ((q : ℚ) - ((v 0 : ℕ) : ℚ))) = sect f q (v 0) := rfl
    rw [popPush]
    by_cases hc : sect f q (v 0) ≤ z 0
    · rw [if_pos (hsect ▸ hc), if_pos hc]
      exact ⟨vl, zl, rfl, rfl, rfl, hvrel, hzrel⟩
    · rw [if_neg (fun hcc => hc (hsect ▸ hcc)), if_neg hc]
      have hvlen2 : ∀ x : ℕ, 0 + 2 < (zl.set (0 + 1) x).length → True := fun _ _ => trivial
      rw [setC_some _ (show 0 + 1 < vl.length by omega)]
      simp only [Option.some_bind]
      rw [setC_some _ (show 0 + 1 < zl.length by omega)]
      simp only [Option.some_bind]
      rw [setC_some _ (show 0 + 2 < (zl.set (0 + 1)
        ((f q - f (v 0) + (q : ℚ) ^ 2 - ((v 0 : ℕ) : ℚ) ^ 2) /
          (2 * ((q : ℚ) - ((v 0 : ℕ) : ℚ))))).length by rw [List.length_set]; omega)]
      simp only [Option.some_bind]
      refine ⟨_, _, by rw [hsect], ?_, ?_, ?_, ?_⟩
      · rw [List.length_set]
      · rw [List.length_set, List.length_set]
      · intro j hj
        rcases Nat.lt_or_ge j 1 with hj1 | hj1
        · obtain rfl : j = 0 := by omega
          rw [getD_set_ne (by omega) _ 0, hvrel 0 le_rfl]
          rw [if_neg (by omega)]
        · obtain rfl : j = 0 + 1 := by omega
          rw [getD_set_self (by omega) _ 0]
          rw [if_pos rfl]
      · intro j hj
        rcases Nat.lt_or_ge j 1 with hj1 | hj1
        · obtain rfl : j = 0 := by omega
          rw [getD_set_ne (by omega) _ 0, getD_set_ne (by omega) _ 0, hzrel 0 (by omega)]
          rw [if_neg (by omega), if_neg (by omega)]
        · rcases Nat.lt_or_ge j 2 with hj2 | hj2
          · obtain rfl : j = 0 + 1 := by omega
            rw [getD_set_ne (by omega) _ 0, getD_set_self (by omega) _ 0]
            rw [if_pos rfl]
          · obtain rfl : j = 0 + 2 := by omega
            rw [getD_set_self (by rw [List.length_set]; omega) _ 0]
            rw [if_neg (by omega), if_pos rfl]
  | succ k ih =>
    intro fl vl zl H hfl hvl hzl hfrel hvrel hzrel
    have hkm : k + 1 ≤ m := H.k_le
    have hvkL : v (k + 1) < L := by
      have hvt := H.hvtop
      omega
    rw [popPushC]
    rw [getElem?_eq_some_getD 0 (show k + 1 < vl.length by omega), hvrel (k + 1) le_rfl]
    simp only [Option.bind_eq_bind, Option.some_bind]
    rw [getElem?_eq_some_getD 0 (show q < fl.length by omega), hfrel q hq]
    simp only [Option.some_bind]
    rw [getElem?_eq_some_getD 0 (show v (k + 1) < fl.length by omega), hfrel (v (k + 1)) hvkL]
    simp only [Option.some_bind]
    rw [getElem?_eq_some_getD 0 (show k + 1 < zl.length by omega), hzrel (k + 1) (by omega)]
    simp only [Option.some_bind]
    have hsect : (f q - f (v (k + 1)) + (q : ℚ) ^ 2 - ((v (k + 1) : ℕ) : ℚ) ^ 2) /
        (2 * ((q : ℚ) - ((v (k + 1) : ℕ) : ℚ))) = sect f q (v (k + 1)) := rfl
    rw [popPush]
    by_cases hc : sect f q (v (k + 1)) ≤ z (k + 1)
    · rw [if_pos (hsect ▸ hc), if_pos hc]
      exact ih fl vl zl (PopInv.pop hq hmq H hc) hfl hvl hzl hfrel
        (fun j hj => hvrel j (by omega)) (fun j hj => hzrel j (by omega))
    · rw [if_neg (fun hcc => hc (hsect ▸ hcc)), if_neg hc]
      have hk2q : k + 1 + 1 ≤ q := by omega
      rw [setC_some _ (show k + 1 + 1 < vl.length by omega)]
      simp only [Option.some_bind]
      rw [setC_some _ (show k + 1 + 1 < zl.length by omega)]
      simp only [Option.some_bind]
      rw [setC_some _ (show k + 1 + 2 < (zl.set (k + 1 + 1)
        ((f q - f (v (k + 1)) + (q : ℚ) ^ 2 - ((v (k + 1) : ℕ) : ℚ) ^ 2) /
          (2 * ((q : ℚ) - ((v (k + 1) : ℕ) : ℚ))))).length by rw [List.length_set]; omega)]
      simp only [Option.some_bind]
      refine ⟨_, _, by rw [hsect], ?_, ?_, ?_, ?_⟩
      · rw [List.length_set]
      · rw [List.length_set, List.length_set]
      · intro j hj
        rcases Nat.lt_or_ge j (k + 2) with hj1 | hj1
        · rw [getD_set_ne (by omega) _ 0, hvrel j (by omega)]
          rw [if_neg (by omega)]
        · obtain rfl : j = k + 1 + 1 := by omega
          rw [getD_set_self (by omega) _ 0]
          rw [if_pos rfl]
      · intro j hj
        rcases Nat.lt_or_ge j (k + 2) with hj1 | hj1
        · rw [getD_set_ne (by omega) _ 0, getD_set_ne (by omega) _ 0, hzrel j (by omega)]
          rw [if_neg (by omega), if_neg (by omega)]
        · rcases Nat.lt_or_ge j (k + 3) with hj2 | hj2
          · obtain rfl : j = k + 1 + 1 := by omega
            rw [getD_set_ne (by omega) _ 0, getD_set_self (by omega) _ 0]
            rw [if_pos rfl]
          · obtain rfl : j = k + 1 + 2 := by omega
            rw [getD_set_self (by rw [List.length_set]; omega) _ 0]
            rw [if_neg (by omega), if_pos rfl]

theorem envLoopC_spec {L : ℕ} {f : ℕ → ℚ} (hf : ValsIn f L) (hd : DimOK L) :
    ∀ n q k (v : ℕ → ℕ) (z : ℕ → ℚ) (fl : List ℚ) (vl : List ℕ) (zl : List ℚ),
      L - q = n → 1 ≤ q → q ≤ L →
      EnvInv f (q - 1) k v z →
      L ≤ fl.length → L ≤ vl.length → L + 1 ≤ zl.length →
      (∀ i, i < L → fl.getD i 0 = f i) →
      (∀ j, j ≤ k → vl.getD j 0 = v j) →
      (∀ j, j ≤ k + 1 → zl.getD j 0 = z j) →
      ∃ vl' zl', envLoopC fl L q k vl zl = some ((envLoop f L q k v z).k, vl', zl') ∧
        vl'.length = vl.length ∧ zl'.length = zl.length ∧
        (∀ j, j ≤ (envLoop f L q k v z).k → vl'.getD j 0 = (envLoop f L q k v z).v j) ∧
        (∀ j, j ≤ (envLoop f L q k v z).k + 1 →
          zl'.getD j 0 = (envLoop f L q k v z).z j) := by
  intro n
  induction n with
  | zero =>
    intro q k v z fl vl zl hn hq1 hqL H hfl hvl hzl hfrel hvrel hzrel
    rw [envLoopC, dif_neg (show ¬ (q < L) by omega)]
    rw [envLoop, dif_neg (show ¬ (q < L) by omega)]
    exact ⟨vl, zl, rfl, rfl, rfl, hvrel, hzrel⟩
  | succ n ih =>
    intro q k v z fl vl zl hn hq1 hqL H hfl hvl hzl hfrel hvrel hzrel
    have hqL' : q < L := by omega
    have hP : PopInv f (q - 1) q k v z := by
      have hs := PopInv.start hf hd (show (q - 1) + 1 < L by omega) H
      rwa [show q - 1 + 1 = q by omega] at hs
    obtain ⟨vl1, zl1, hpopEq, hvl1, hzl1, hvrel1, hzrel1⟩ :=
      popPushC_spec hqL' (show q - 1 + 1 = q by omega) k fl vl zl hP hfl hvl hzl
        hfrel hvrel hzrel
    have hE : EnvInv f q (popPush f q k v z).k (popPush f q k v z).v (popPush f q k v z).z :=
      popPush_spec hf hd hqL' (show q - 1 + 1 = q by omega) _ _ _ hP
    have hcheck : envLoopC fl L q k vl zl =
        envLoopC fl L (q + 1) (popPush f q k v z).k vl1 zl1 := by
      rw [envLoopC, dif_pos hqL', hpopEq]
      simp only [Option.bind_eq_bind, Option.some_bind]
    have hpure : envLoop f L q k v z =
        envLoop f L (q + 1) (popPush f q k v z).k (popPush f q k v z).v
          (popPush f q k v z).z := by
      rw [envLoop, dif_pos hqL']
    obtain ⟨vl2, zl2, heq2, hlen2v, hlen2z, hvrel2, hzrel2⟩ :=
      ih (q + 1) (popPush f q k v z).k (popPush f q k v z).v (popPush f q k v z).z
        fl vl1 zl1 (by omega) (by omega) (by omega)
        (by rwa [show q + 1 - 1 = q by omega])
        hfl (by omega) (by omega) hfrel hvrel1 hzrel1
    rw [hcheck, hpure]
    exact ⟨vl2, zl2, heq2, by omega, by omega, hvrel2, hzrel2⟩

theorem advC_spec {K : ℕ} {z : ℕ → ℚ} {zl : List ℚ} (hztop : z (K + 1) = INF)
    (hKz : K + 1 < zl.length)
    (hzrel : ∀ j, j ≤ K + 1 → zl.getD j 0 = z j)
    {x : ℚ} (hx : x ≤ INF) :
    ∀ fuel k, k ≤ K → K - k < fuel →
      advC zl x k = some (advanceK z x fuel k) := by
  intro fuel
  induction fuel with
  | zero =>
    intro k hk hfuel
    exact absurd hfuel (by omega)
  | succ fuel ih =>
    intro k hk hfuel
    have hread : zl[k + 1]? = some (z (k + 1)) := by
      rw [getElem?_eq_some_getD 0 (by omega), hzrel (k + 1) (by omega)]
    rw [advC]
    split
    · rename_i heq
      rw [hread] at heq
      exact absurd heq (by simp)
    · rename_i zk1 heq
      rw [hread] at heq
      have hzk1 : zk1 = z (k + 1) := by
        injection heq with h
        exact h.symm
      subst hzk1
      by_cases hc : z (k + 1) < x
      · have hkK : k < K := by
          rcases Nat.lt_or_ge k K with h | h
          · exact h
          · obtain rfl : k = K := by omega
            rw [hztop] at hc
            exact absurd hc (not_lt.mpr hx)
        rw [if_pos hc]
        rw [ih (k + 1) (by omega) (by omega)]
        simp only [advanceK, if_pos hc]
      · rw [if_neg hc]
        simp only [advanceK, if_neg hc]

theorem sweepC_spec {L K : ℕ} {f : ℕ → ℚ} {v : ℕ → ℕ} {z : ℕ → ℚ}
    (hE : EnvInv f (L - 1) K v z) (hL : 1 ≤ L) (hd : DimOK L)
    {fl : List ℚ} {vl : List ℕ} {zl : List ℚ}
    (hfl : L ≤ fl.length) (hvl : L ≤ vl.length) (hzl : L + 1 ≤ zl.length)
    (hfrel : ∀ i, i < L → fl.getD i 0 = f i)
    (hvrel : ∀ j, j ≤ K → vl.getD j 0 = v j)
    (hzrel : ∀ j, j ≤ K + 1 → zl.getD j 0 = z j)
    (offset stride : ℕ) :
    ∀ n q k grid, q + n = L → k ≤ K → z k ≤ (q : ℚ) →
      (∀ t, t < L → offset + t * stride < grid.length) →
      sweepC fl vl zl offset stride L q k grid =
        some (writeSeq offset stride grid q (sweepAux f v z L n q k)) := by
  have hKL : K ≤ L - 1 := hE.K_le
  intro n
  induction n with
  | zero =>
    intro q k grid hqn hk hzk hbound
    rw [sweepC, dif_neg (show ¬ (q < L) by omega)]
    rfl
  | succ n ih =>
    intro q k grid hqn hk hzk hbound
    have hqL : q < L := by omega
    have hxINF : (q : ℚ) ≤ INF := by
      have h1 : (q : ℚ) ≤ (2 : ℚ) ^ 63 := by
        have h2 : (q : ℚ) ≤ (L : ℚ) := by exact_mod_cast le_of_lt hqL
        have hL63 : (L : ℚ) ≤ (2 : ℚ) ^ 63 := by exact_mod_cast hd
        linarith
      have h3 : ((2 : ℚ) ^ 63) ≤ 10 ^ 20 := by norm_num
      rw [INF]
      linarith
    rw [sweepC, dif_pos hqL]
    rw [advC_spec hE.hztop (by omega) hzrel hxINF L k hk (by omega)]
    simp only [Option.bind_eq_bind, Option.some_bind]
    obtain ⟨ha1, ha2, ha3, ha4⟩ := advanceK_spec hE.hztop hxINF L k hk (by omega) hzk
    have hvk'L : v (advanceK z (q : ℚ) L k) < L := by
      have h1 : v (advanceK z (q : ℚ) L k) ≤ v K := hE.v_mono _ K ha2 le_rfl
      have h2 : v K ≤ L - 1 := hE.hvtop
      omega
    rw [getElem?_eq_some_getD 0 (show advanceK z (q : ℚ) L k < vl.length by omega),
      hvrel _ ha2]
    simp only [Option.some_bind]
    rw [getElem?_eq_some_getD 0 (show v (advanceK z (q : ℚ) L k) < fl.length by omega),
      hfrel _ hvk'L]
    simp only [Option.some_bind]
    rw [setC_some _ (hbound q hqL)]
    simp only [Option.some_bind]
    have hznext : z (advanceK z (q : ℚ) L k) ≤ ((q + 1 : ℕ) : ℚ) := by
      push_cast
      linarith
    have hboundset : ∀ t, t < L →
        offset + t * stride <
          (grid.set (offset + q * stride)
            (f (v (advanceK z (q : ℚ) L k)) +
              ((q : ℚ) - ((v (advanceK z (q : ℚ) L k)) : ℚ)) ^ 2)).length := by
      intro t ht
      rw [List.length_set]
      exact hbound t ht
    rw [ih (q + 1) (advanceK z (q : ℚ) L k) _ (by omega) ha2 hznext hboundset]
    simp only [sweepAux]
    rfl

theorem edt1dC_spec (grid : List ℚ) (offset stride L : ℕ)
    (hbound : ∀ t, t < L → offset + t * stride < grid.length)
    (hvals : ∀ t, t < L → 0 ≤ grid.getD (offset + t * stride) 0 ∧
      grid.getD (offset + t * stride) 0 ≤ INF)
    (hd : DimOK L)
    (fl : List ℚ) (vl : List ℕ) (zl : List ℚ)
    (hfl : L ≤ fl.length) (hvl : L ≤ vl.length) (hzl : L + 1 ≤ zl.length)
    (hvl0 : 0 < vl.length) (hzl1 : 1 < zl.length) :
    ∃ fl' vl' zl', edt1dC grid offset stride L fl vl zl =
      some (edt1dG grid offset stride L, fl', vl', zl') ∧
      fl'.length = fl.length ∧ vl'.length = vl.length ∧ zl'.length = zl.length := by
  rw [edt1dC]
  rw [setC_some (0 : ℕ) hvl0]
  simp only [Option.bind_eq_bind, Option.some_bind]
  rw [setC_some (-INF) (by omega)]
  simp only [Option.some_bind]
  rw [setC_some INF (by rw [List.length_set]; omega)]
  simp only [Option.some_bind]
  obtain ⟨fl1, hcopyEq, hfl1len, hfl1hi, _⟩ :=
    copyF_spec grid offset stride L hbound L 0 fl (by omega) hfl
  rw [hcopyEq]
  simp only [Option.some_bind]
  rcases Nat.eq_zero_or_pos L with rfl | hL
  · rw [envLoopC, dif_neg (by omega)]
    simp only [Option.some_bind]
    rw [sweepC, dif_neg (by omega)]
    simp only [Option.some_bind]
    refine ⟨fl1, vl.set 0 0, (zl.set 0 (-INF)).set 1 INF, rfl, hfl1len, ?_, ?_⟩
    · rw [List.length_set]
    · rw [List.length_set, List.length_set]
  · have hfrel : ∀ i, i < L → fl1.getD i 0 =
        (fun i => (lineOf grid offset stride L).getD i 0) i := by
      intro i hi
      show fl1.getD i 0 = (lineOf grid offset stride L).getD i 0
      rw [hfl1hi i (by omega) hi, lineOf_getD grid offset stride L hi]
    have hfv : ValsIn (fun i => (lineOf grid offset stride L).getD i 0) L := by
      intro i hi
      show 0 ≤ (lineOf grid offset stride L).getD i 0 ∧
        (lineOf grid offset stride L).getD i 0 ≤ INF
      rw [lineOf_getD grid offset stride L hi]
      exact hvals i hi
    have hv0rel : ∀ j, j ≤ 0 → (vl.set 0 0).getD j 0 = envInitV j := by
      intro j hj
      obtain rfl : j = 0 := by omega
      rw [getD_set_self hvl0 _ 0]
      rfl
    have hz0rel : ∀ j, j ≤ 0 + 1 → ((zl.set 0 (-INF)).set 1 INF).getD j 0 = envInitZ j := by
      intro j hj
      rcases Nat.lt_or_ge j 1 with hj1 | hj1
      · obtain rfl : j = 0 := by omega
        rw [getD_set_ne (by omega) _ 0, getD_set_self (by omega) _ 0]
        simp [envInitZ]
      · obtain rfl : j = 1 := by omega
        rw [getD_set_self (by rw [List.length_set]; omega) _ 0]
        simp [envInitZ]
    have hb1 : L ≤ fl1.length := by omega
    have hb2 : L ≤ (vl.set 0 0).length := by
      rw [List.length_set]
      omega
    have hb3 : L + 1 ≤ ((zl.set 0 (-INF)).set 1 INF).length := by
      rw [List.length_set, List.length_set]
      omega
    obtain ⟨vl2, zl2, henvEq, hvl2len, hzl2len, hvrel2, hzrel2⟩ :=
      envLoopC_spec hfv hd (L - 1) 1 0 envInitV envInitZ fl1 (vl.set 0 0)
        ((zl.set 0 (-INF)).set 1 INF) (by omega) le_rfl (by omega) (envInit_inv _)
        hb1 hb2 hb3 hfrel hv0rel hz0rel
    rw [henvEq]
    simp only [Option.some_bind]
    have hEnv := envLoop_full hfv hd hL
    have hz0le : (envLoop (fun i => (lineOf grid offset stride L).getD i 0) L 1 0
        envInitV envInitZ).z 0 ≤ ((0 : ℕ) : ℚ) := by
      rw [hEnv.hz0]
      norm_num [INF]
    rw [sweepC_spec hEnv hL hd (by omega) (by omega) (by omega) hfrel hvrel2 hzrel2
      offset stride L 0 0 grid (by omega) (by omega) hz0le hbound]
    simp only [Option.some_bind]
    have hedt1dG : edt1dG grid offset stride L = writeSeq offset stride grid 0
        (sweepAux (fun i => (lineOf grid offset stride L).getD i 0)
          (envLoop (fun i => (lineOf grid offset stride L).getD i 0) L 1 0
            envInitV envInitZ).v
          (envLoop (fun i => (lineOf grid offset stride L).getD i 0) L 1 0
            envInitV envInitZ).z L L 0 0) := by
      rw [edt1dG]
      congr 1
      simp only [edt1dLine]
      rw [lineOf_length]
    rw [hedt1dG]
    refine ⟨fl1, vl2, zl2, rfl, hfl1len, ?_, ?_⟩
    · rw [hvl2len, List.length_set]
    · rw [hzl2len, List.length_set, List.length_set]

theorem col_step_vals {w h x0 : ℕ} (hx0 : x0 < w) (hd : DimOK h) (g : List ℚ)
    (hlen : g.length = w * h)
    (hvals : ∀ i, i < w * h → 0 ≤ g.getD i 0 ∧ g.getD i 0 ≤ INF) :
    ∀ i, i < w * h → 0 ≤ (edt1dG g x0 w h).getD i 0 ∧ (edt1dG g x0 w h).getD i 0 ≤ INF := by
  intro i hi
  have hw0 : 0 < w := by omega
  have hh : 1 ≤ h := by
    by_contra hcon
    have : h = 0 := by omega
    subst this
    omega
  have hdm := Nat.div_add_mod i w
  set a := i % w with hadef
  set b := i / w with hbdef
  have ha : a < w := Nat.mod_lt i hw0
  have hb : b < h := by
    rw [hbdef, Nat.div_lt_iff_lt_mul hw0]
    have hcomm : w * h = h * w := Nat.mul_comm w h
    omega
  have hi_eq : i = b * w + a := by
    rw [Nat.mul_comm b w]
    omega
  rw [hi_eq]
  by_cases hax : a = x0
  · subst hax
    rw [col_hit ha hb hd g hlen hvals]
    exact colmin_bounds ha hb g hlen hvals
  · rw [col_untouched hx0 ha hax g]
    rw [← hi_eq]
    exact hvals i hi

theorem row_step_vals {w h y0 : ℕ} (hy0 : y0 < h) (hd : DimOK w) (g : List ℚ)
    (hlen : g.length = w * h) (hw : 1 ≤ w)
    (hvals : ∀ i, i < w * h → 0 ≤ g.getD i 0 ∧ g.getD i 0 ≤ INF) :
    ∀ i, i < w * h →
      0 ≤ (edt1dG g (y0 * w) 1 w).getD i 0 ∧ (edt1dG g (y0 * w) 1 w).getD i 0 ≤ INF := by
  intro i hi
  have hw0 : 0 < w := by omega
  have hdm := Nat.div_add_mod i w
  set a := i % w with hadef
  set b := i / w with hbdef
  have ha : a < w := Nat.mod_lt i hw0
  have hb : b < h := by
    rw [hbdef, Nat.div_lt_iff_lt_mul hw0]
    have hcomm : w * h = h * w := Nat.mul_comm w h
    omega
  have hi_eq : i = b * w + a := by
    rw [Nat.mul_comm b w]
    omega
  rw [hi_eq]
  by_cases hby : b = y0
  · subst hby
    rw [row_hit hb ha hd g hlen hvals]
    constructor
    · apply Finset.le_inf'
      intro p hp
      have hpw : p < w := Finset.mem_range.mp hp
      have hidx : b * w + p < w * h := idx_row_lt hb hpw
      have h1 := (hvals _ hidx).1
      have hsq : (0 : ℚ) ≤ ((a : ℚ) - (p : ℚ)) ^ 2 := sq_nonneg _
      linarith
    · have hmem : a ∈ Finset.range w := Finset.mem_range.mpr ha
      refine le_trans (Finset.inf'_le _ hmem) ?_
      have hidx : b * w + a < w * h := idx_row_lt hb ha
      have h2 := (hvals _ hidx).2
      simp only [sub_self]
      rw [zero_pow (by norm_num : 2 ≠ 0), add_zero]
      exact h2
  · rw [row_untouched hy0 ha hb hby g]
    rw [← hi_eq]
    exact hvals i hi

theorem colLoop_length {w h : ℕ} : ∀ n x0 g, w - x0 = n →
    (colLoop w h x0 g).length = g.length := by
  intro n
  induction n with
  | zero =>
    intro x0 g hn
    rw [colLoop, dif_neg (show ¬ (x0 < w) by omega)]
  | succ n ih =>
    intro x0 g hn
    rw [colLoop, dif_pos (show x0 < w by omega)]
    rw [ih (x0 + 1) _ (by omega), edt1dG_length]

theorem rowLoop_length {w h : ℕ} : ∀ n y0 g, h - y0 = n →
    (rowLoop w h y0 g).length = g.length := by
  intro n
  induction n with
  | zero =>
    intro y0 g hn
    rw [rowLoop, dif_neg (show ¬ (y0 < h) by omega)]
  | succ n ih =>
    intro y0 g hn
    rw [rowLoop, dif_pos (show y0 < h by omega)]
    rw [ih (y0 + 1) _ (by omega), edt1dG_length]

theorem colLoop_vals {w h : ℕ} (hd : DimOK h) (g : List ℚ) (hlen : g.length = w * h)
    (hvals : ∀ i, i < w * h → 0 ≤ g.getD i 0 ∧ g.getD i 0 ≤ INF) :
    ∀ i, i < w * h →
      0 ≤ (colLoop w h 0 g).getD i 0 ∧ (colLoop w h 0 g).getD i 0 ≤ INF := by
  intro i hi
  have hw : 0 < w := by
    rcases Nat.eq_zero_or_pos w with rfl | hw
    · omega
    · exact hw
  have hh : 0 < h := by
    rcases Nat.eq_zero_or_pos h with rfl | hh
    · omega
    · exact hh
  obtain ⟨cl, cu, ct⟩ := colLoop_spec hh hd w 0 g (by omega) hlen hvals
  have hdm := Nat.div_add_mod i w
  set a := i % w with hadef
  set b := i / w with hbdef
  have ha : a < w := Nat.mod_lt i hw
  have hb : b < h := by
    rw [hbdef, Nat.div_lt_iff_lt_mul hw]
    have hcomm : w * h = h * w := Nat.mul_comm w h
    omega
  have hi_eq : i = b * w + a := by
    rw [Nat.mul_comm b w]
    omega
  rw [hi_eq, ct a b ha hb (by omega)]
  exact colmin_bounds ha hb g hlen hvals

theorem colLoopC_spec {w h : ℕ} (hd : DimOK h) :
    ∀ n x0 (grid fl : List ℚ) (vl : List ℕ) (zl : List ℚ),
      w - x0 = n → grid.length = w * h →
      (∀ i, i < w * h → 0 ≤ grid.getD i 0 ∧ grid.getD i 0 ≤ INF) →
      h ≤ fl.length → h ≤ vl.length → h + 1 ≤ zl.length →
      0 < vl.length → 1 < zl.length →
      ∃ fl' vl' zl', colLoopC w h x0 grid fl vl zl =
        some (colLoop w h x0 grid, fl', vl', zl') ∧
        fl'.length = fl.length ∧ vl'.length = vl.length ∧ zl'.length = zl.length := by
  intro n
  induction n with
  | zero =>
    intro x0 grid fl vl zl hn hlen hvals hfl hvl hzl hvl0 hzl1
    rw [colLoopC, dif_neg (show ¬ (x0 < w) by omega)]
    rw [colLoop, dif_neg (show ¬ (x0 < w) by omega)]
    exact ⟨fl, vl, zl, rfl, rfl, rfl, rfl⟩
  | succ n ih =>
    intro x0 grid fl vl zl hn hlen hvals hfl hvl hzl hvl0 hzl1
    have hx0 : x0 < w := by omega
    have hbound : ∀ t, t < h → x0 + t * w < grid.length := by
      intro t ht
      rw [hlen]
      exact idx_col_lt hx0 ht
    have hvals1 : ∀ t, t < h → 0 ≤ grid.getD (x0 + t * w) 0 ∧
        grid.getD (x0 + t * w) 0 ≤ INF := by
      intro t ht
      exact hvals _ (by rw [← hlen]; exact hbound t ht)
    obtain ⟨fl1, vl1, zl1, hedtEq, hfl1, hvl1, hzl1'⟩ :=
      edt1dC_spec grid x0 w h hbound hvals1 hd fl vl zl hfl hvl hzl hvl0 hzl1
    rw [colLoopC, dif_pos hx0, hedtEq]
    simp only [Option.bind_eq_bind, Option.some_bind]
    have hpure : colLoop w h x0 grid = colLoop w h (x0 + 1) (edt1dG grid x0 w h) := by
      rw [colLoop, dif_pos hx0]
    rw [hpure]
    have hvals' : ∀ i, i < w * h →
        0 ≤ (edt1dG grid x0 w h).getD i 0 ∧ (edt1dG grid x0 w h).getD i 0 ≤ INF :=
      col_step_vals hx0 hd grid hlen hvals
    obtain ⟨fl2, vl2, zl2, hloopEq, hfl2, hvl2, hzl2⟩ :=
      ih (x0 + 1) (edt1dG grid x0 w h) fl1 vl1 zl1 (by omega)
        (by rw [edt1dG_length]; exact hlen) hvals'
        (by omega) (by omega) (by omega) (by omega) (by omega)
    exact ⟨fl2, vl2, zl2, hloopEq, by omega, by omega, by omega⟩

theorem rowLoopC_spec {w h : ℕ} (hd : DimOK w) :
    ∀ n y0 (grid fl : List ℚ) (vl : List ℕ) (zl : List ℚ),
      h - y0 = n → grid.length = w * h →
      (∀ i, i < w * h → 0 ≤ grid.getD i 0 ∧ grid.getD i 0 ≤ INF) →
      w ≤ fl.length → w ≤ vl.length → w + 1 ≤ zl.length →
      0 < vl.length → 1 < zl.length →
      ∃ fl' vl' zl', rowLoopC w h y0 grid fl vl zl =
        some (rowLoop w h y0 grid, fl', vl', zl') ∧
        fl'.length = fl.length ∧ vl'.length = vl.length ∧ zl'.length = zl.length := by
  intro n
  induction n with
  | zero =>
    intro y0 grid fl vl zl hn hlen hvals hfl hvl hzl hvl0 hzl1
    rw [rowLoopC, dif_neg (show ¬ (y0 < h) by omega)]
    rw [rowLoop, dif_neg (show ¬ (y0 < h) by omega)]
    exact ⟨fl, vl, zl, rfl, rfl, rfl, rfl⟩
  | succ n ih =>
    intro y0 grid fl vl zl hn hlen hvals hfl hvl hzl hvl0 hzl1
    have hy0 : y0 < h := by omega
    have hbound : ∀ t, t < w → y0 * w + t * 1 < grid.length := by
      intro t ht
      rw [hlen, Nat.mul_one]
      exact idx_row_lt hy0 ht
    have hvals1 : ∀ t, t < w → 0 ≤ grid.getD (y0 * w + t * 1) 0 ∧
        grid.getD (y0 * w + t * 1) 0 ≤ INF := by
      intro t ht
      exact hvals _ (by rw [← hlen]; exact hbound t ht)
    obtain ⟨fl1, vl1, zl1, hedtEq, hfl1, hvl1, hzl1'⟩ :=
      edt1dC_spec grid (y0 * w) 1 w hbound hvals1 hd fl vl zl hfl hvl hzl hvl0 hzl1
    rw [rowLoopC, dif_pos hy0, hedtEq]
    simp only [Option.bind_eq_bind, Option.some_bind]
    have hpure : rowLoop w h y0 grid = rowLoop w h (y0 + 1) (edt1dG grid (y0 * w) 1 w) := by
      rw [rowLoop, dif_pos hy0]
    rw [hpure]
    have hvals' : ∀ i, i < w * h →
        0 ≤ (edt1dG grid (y0 * w) 1 w).getD i 0 ∧
          (edt1dG grid (y0 * w) 1 w).getD i 0 ≤ INF := by
      rcases Nat.eq_zero_or_pos w with rfl | hw
      · intro i hi
        omega
      · exact row_step_vals hy0 hd grid hlen hw hvals
    obtain ⟨fl2, vl2, zl2, hloopEq, hfl2, hvl2, hzl2⟩ :=
      ih (y0 + 1) (edt1dG grid (y0 * w) 1 w) fl1 vl1 zl1 (by omega)
        (by rw [edt1dG_length]; exact hlen) hvals'
        (by omega) (by omega) (by omega) (by omega) (by omega)
    exact ⟨fl2, vl2, zl2, hloopEq, by omega, by omega, by omega⟩

theorem edtC_spec {w h : ℕ} (hdw : DimOK w) (hdh : DimOK h)
    (grid fl : List ℚ) (vl : List ℕ) (zl : List ℚ)
    (hlen : grid.length = w * h)
    (hvals : ∀ i, i < w * h → 0 ≤ grid.getD i 0 ∧ grid.getD i 0 ≤ INF)
    (hfl : max w h ≤ fl.length) (hvl : max w h ≤ vl.length)
    (hzl : max w h + 1 ≤ zl.length) :
    ∃ fl' vl' zl', edtC grid w h fl vl zl = some (edt grid w h, fl', vl', zl') ∧
      fl'.length = fl.length ∧ vl'.length = vl.length ∧ zl'.length = zl.length := by
  rcases Nat.eq_zero_or_pos (max w h) with hmax | hmax
  · have hw0 : w = 0 := by omega
    have hh0 : h = 0 := by omega
    subst hw0
    subst hh0
    rw [edtC, colLoopC, dif_neg (by omega)]
    simp only [Option.bind_eq_bind, Option.some_bind]
    rw [rowLoopC, dif_neg (by omega)]
    rw [edt, colLoop, dif_neg (by omega), rowLoop, dif_neg (by omega)]
    exact ⟨fl, vl, zl, rfl, rfl, rfl, rfl⟩
  · have hvl0 : 0 < vl.length := by omega
    have hzl1 : 1 < zl.length := by omega
    obtain ⟨fl1, vl1, zl1, hcolEq, hfl1, hvl1, hzl1'⟩ :=
      colLoopC_spec hdh w 0 grid fl vl zl (by omega) hlen hvals
        (by omega) (by omega) (by omega) hvl0 hzl1
    have hcollen : (colLoop w h 0 grid).length = w * h := by
      rw [colLoop_length (w - 0) 0 grid rfl]
      exact hlen
    have hcolvals : ∀ i, i < w * h →
        0 ≤ (colLoop w h 0 grid).getD i 0 ∧ (colLoop w h 0 grid).getD i 0 ≤ INF :=
      colLoop_vals hdh grid hlen hvals
    obtain ⟨fl2, vl2, zl2, hrowEq, hfl2, hvl2, hzl2⟩ :=
      rowLoopC_spec hdw h 0 (colLoop w h 0 grid) fl1 vl1 zl1 (by omega) hcollen hcolvals
        (by omega) (by omega) (by omega) (by omega) (by omega)
    rw [edtC, hcolEq]
    simp only [Option.bind_eq_bind, Option.some_bind]
    rw [hrowEq]
    exact ⟨fl2, vl2, zl2, rfl, by omega, by omega, by omega⟩

/-! ### Seeding and the characterization of `sdfGrids` -/

theorem seedOuter_bounds (b : ℕ) : 0 ≤ seedOuter b ∧ seedOuter b ≤ INF := by
  rw [seedOuter]
  by_cases h1 : ((b : ℚ) / 255) = 1
  · rw [if_pos h1]
    exact ⟨le_refl 0, le_of_lt INF_pos⟩
  · rw [if_neg h1]
    by_cases h0 : ((b : ℚ) / 255) = 0
    · rw [if_pos h0]
      exact ⟨le_of_lt INF_pos, le_refl INF⟩
    · rw [if_neg h0]
      constructor
      · positivity
      · have hm : max (1 / 2 - (b : ℚ) / 255) 0 ≤ 1 / 2 := by
          apply max_le
          · have hb : (0 : ℚ) ≤ (b : ℚ) / 255 := by positivity
            linarith
          · norm_num
        have hm0 : (0 : ℚ) ≤ max (1 / 2 - (b : ℚ) / 255) 0 := le_max_right _ _
        have hsq : (max (1 / 2 - (b : ℚ) / 255) 0) ^ 2 ≤ (1 / 2 : ℚ) ^ 2 := by
          exact pow_le_pow_left hm0 hm 2
        have : ((1 : ℚ) / 2) ^ 2 ≤ INF := by norm_num [INF]
        linarith

theorem seedInner_bounds {b : ℕ} (hb : b ≤ 255) : 0 ≤ seedInner b ∧ seedInner b ≤ INF := by
  rw [seedInner]
  by_cases h1 : ((b : ℚ) / 255) = 1
  · rw [if_pos h1]
    exact ⟨le_of_lt INF_pos, le_refl INF⟩
  · rw [if_neg h1]
    by_cases h0 : ((b : ℚ) / 255) = 0
    · rw [if_pos h0]
      exact ⟨le_refl 0, le_of_lt INF_pos⟩
    · rw [if_neg h0]
      constructor
      · positivity
      · have hble : (b : ℚ) ≤ 255 := by exact_mod_cast hb
        have hm : max ((b : ℚ) / 255 - 1 / 2) 0 ≤ 1 / 2 := by
          apply max_le
          · have hb1 : (b : ℚ) / 255 ≤ 1 := by
              rw [div_le_one (by norm_num : (0 : ℚ) < 255)]
              exact hble
            linarith
          · norm_num
        have hm0 : (0 : ℚ) ≤ max ((b : ℚ) / 255 - 1 / 2) 0 := le_max_right _ _
        have hsq : (max ((b : ℚ) / 255 - 1 / 2) 0) ^ 2 ≤ (1 / 2 : ℚ) ^ 2 :=
          pow_le_pow_left hm0 hm 2
        have : ((1 : ℚ) / 2) ^ 2 ≤ INF := by norm_num [INF]
        linarith

theorem seedLoop_some (cov : List ℕ) (n : ℕ) (hn : n ≤ cov.length) :
    ∀ m i go gi, n - i = m → go.length = n → gi.length = n →
      ∃ go' gi', seedLoop cov n i go gi = some (go', gi') ∧
        go'.length = n ∧ gi'.length = n ∧
        (∀ j, i ≤ j → j < n → go'.getD j 0 = seedOuter (cov.getD j 0) ∧
          gi'.getD j 0 = seedInner (cov.getD j 0)) ∧
        (∀ j, j < i → go'.getD j 0 = go.getD j 0 ∧ gi'.getD j 0 = gi.getD j 0) := by
  intro m
  induction m with
  | zero =>
    intro i go gi hm hgo hgi
    rw [seedLoop, dif_neg (show ¬ (i < n) by omega)]
    exact ⟨go, gi, rfl, hgo, hgi, fun j hij hjn => absurd hij (by omega),
      fun j _ => ⟨rfl, rfl⟩⟩
  | succ m ih =>
    intro i go gi hm hgo hgi
    have hin : i < n := by omega
    rw [seedLoop, dif_pos hin]
    rw [getElem?_eq_some_getD 0 (by omega)]
    simp only [Option.bind_eq_bind, Option.some_bind]
    rw [setC_some _ (by omega)]
    simp only [Option.some_bind]
    rw [setC_some _ (by omega)]
    simp only [Option.some_bind]
    obtain ⟨go', gi', heq, hlg, hlgi, hcont, huntouched⟩ :=
      ih (i + 1) (go.set i (seedOuter (cov.getD i 0)))
        (gi.set i (seedInner (cov.getD i 0)))
        (by omega) (by rw [List.length_set]; omega) (by rw [List.length_set]; omega)
    refine ⟨go', gi', heq, hlg, hlgi, ?_, ?_⟩
    · intro j hij hjn
      rcases Nat.eq_or_lt_of_le hij with heqj | hij'
      · rw [← heqj]
        obtain ⟨hu1, hu2⟩ := huntouched i (by omega)
        rw [hu1, hu2, getD_set_self (by omega) _ 0, getD_set_self (by omega) _ 0]
        exact ⟨rfl, rfl⟩
      · exact hcont j (by omega) hjn
    · intro j hji
      obtain ⟨hu1, hu2⟩ := huntouched j (by omega)
      rw [hu1, hu2, getD_set_ne (by omega) _ 0, getD_set_ne (by omega) _ 0]
      exact ⟨rfl, rfl⟩

theorem seedLoop_none (cov : List ℕ) (n : ℕ) (hn : cov.length < n) :
    ∀ m i go gi, cov.length - i = m → i ≤ cov.length → n ≤ go.length → n ≤ gi.length →
      seedLoop cov n i go gi = none := by
  intro m
  induction m with
  | zero =>
    intro i go gi hm hi hgo hgi
    have hieq : i = cov.length := by omega
    rw [seedLoop, dif_pos (by omega)]
    rw [List.getElem?_eq_none (by omega)]
    rfl
  | succ m ih =>
    intro i go gi hm hi hgo hgi
    rw [seedLoop, dif_pos (by omega)]
    rw [getElem?_eq_some_getD 0 (by omega)]
    simp only [Option.bind_eq_bind, Option.some_bind]
    rw [setC_some _ (by omega)]
    simp only [Option.some_bind]
    rw [setC_some _ (by omega)]
    simp only [Option.some_bind]
    exact ih (i + 1) _ _ (by omega) (by omega)
      (by rw [List.length_set]; omega) (by rw [List.length_set]; omega)

theorem edt_length (g : List ℚ) (w h : ℕ) : (edt g w h).length = g.length := by
  rw [edt, rowLoop_length (h - 0) 0 _ rfl, colLoop_length (w - 0) 0 g rfl]

theorem sdfGrids_char {w h : ℕ} (cov : List ℕ) (hcov : w * h ≤ cov.length)
    (hbytes : ∀ b ∈ cov, b ≤ 255) (hdw : DimOK w) (hdh : DimOK h)
    (hw : 1 ≤ w) (hh : 1 ≤ h) :
    ∃ go gi, sdfGrids cov w h = some (go, gi) ∧ go.length = w * h ∧ gi.length = w * h ∧
      (∀ x y, x < w → y < h →
        go.getD (y * w + x) 0 =
          Finset.inf' (Finset.range w ×ˢ Finset.range h)
            ((Finset.nonempty_range_iff.mpr (by omega)).product
              (Finset.nonempty_range_iff.mpr (by omega)))
            (fun p => seedOuter (cov.getD (p.2 * w + p.1) 0) +
              ((x : ℚ) - (p.1 : ℚ)) ^ 2 + ((y : ℚ) - (p.2 : ℚ)) ^ 2) ∧
        gi.getD (y * w + x) 0 =
          Finset.inf' (Finset.range w ×ˢ Finset.range h)
            ((Finset.nonempty_range_iff.mpr (by omega)).product
              (Finset.nonempty_range_iff.mpr (by omega)))
            (fun p => seedInner (cov.getD (p.2 * w + p.1) 0) +
              ((x : ℚ) - (p.1 : ℚ)) ^ 2 + ((y : ℚ) - (p.2 : ℚ)) ^ 2)) := by
  obtain ⟨go1, gi1, hseedEq, hgo1len, hgi1len, hcont, _⟩ :=
    seedLoop_some cov (w * h) hcov (w * h) 0 (List.replicate (w * h) 0)
      (List.replicate (w * h) 0) (by omega) (List.length_replicate _ _)
      (List.length_replicate _ _)
  have hbyte : ∀ j, j < w * h → cov.getD j 0 ≤ 255 := by
    intro j hj
    have hjc : j < cov.length := by omega
    rw [List.getD_eq_getElem?_getD, List.getElem?_eq_getElem hjc]
    simp only [Option.getD_some]
    exact hbytes _ (List.getElem_mem hjc)
  have hgo1vals : ∀ i, i < w * h → 0 ≤ go1.getD i 0 ∧ go1.getD i 0 ≤ INF := by
    intro i hi
    rw [(hcont i (by omega) hi).1]
    exact seedOuter_bounds _
  have hgi1vals : ∀ i, i < w * h → 0 ≤ gi1.getD i 0 ∧ gi1.getD i 0 ≤ INF := by
    intro i hi
    rw [(hcont i (by omega) hi).2]
    exact seedInner_bounds (hbyte i hi)
  have hsf : (scratchF w h).length = max w h := by
    rw [scratchF, List.length_replicate]
    rfl
  have hsv : (scratchV w h).length = max w h * 2 := by
    rw [scratchV, List.length_replicate]
    rfl
  have hsz : (scratchZ w h).length = max w h + 1 := by
    rw [scratchZ, List.length_replicate]
    rfl
  obtain ⟨fl1, vl1, zl1, hedt1Eq, hf1, hv1, hz1⟩ :=
    edtC_spec hdw hdh go1 (scratchF w h) (scratchV w h) (scratchZ w h) hgo1len hgo1vals
      (by omega) (by omega) (by omega)
  obtain ⟨fl2, vl2, zl2, hedt2Eq, _, _, _⟩ :=
    edtC_spec hdw hdh gi1 fl1 vl1 zl1 hgi1len hgi1vals
      (by omega) (by omega) (by omega)
  refine ⟨edt go1 w h, edt gi1 w h, ?_, ?_, ?_, ?_⟩
  · rw [sdfGrids, hseedEq]
    simp only [Option.bind_eq_bind, Option.some_bind]
    rw [hedt1Eq]
    simp only [Option.some_bind]
    rw [hedt2Eq]
    simp only [Option.some_bind]
  · rw [edt_length]
    exact hgo1len
  · rw [edt_length]
    exact hgi1len
  · intro x y hx hy
    constructor
    · rw [edt_correct go1 hw hh hdw hdh hgo1len hgo1vals hx hy]
      apply Finset.inf'_congr _ rfl
      intro p hp
      obtain ⟨hp1, hp2⟩ := Finset.mem_product.mp hp
      have hp1w : p.1 < w := Finset.mem_range.mp hp1
      have hp2h : p.2 < h := Finset.mem_range.mp hp2
      rw [(hcont (p.2 * w + p.1) (by omega) (idx_row_lt hp2h hp1w)).1]
    · rw [edt_correct gi1 hw hh hdw hdh hgi1len hgi1vals hx hy]
      apply Finset.inf'_congr _ rfl
      intro p hp
      obtain ⟨hp1, hp2⟩ := Finset.mem_product.mp hp
      have hp1w : p.1 < w := Finset.mem_range.mp hp1
      have hp2h : p.2 < h := Finset.mem_range.mp hp2
      rw [(hcont (p.2 * w + p.1) (by omega) (idx_row_lt hp2h hp1w)).2]

theorem sdfGrids_isSome {w h : ℕ} (cov : List ℕ) (hcov : w * h ≤ cov.length)
    (hbytes : ∀ b ∈ cov, b ≤ 255) (hdw : DimOK w) (hdh : DimOK h) :
    ∃ go gi, sdfGrids cov w h = some (go, gi) ∧
      go.length = w * h ∧ gi.length = w * h := by
  obtain ⟨go1, gi1, hseedEq, hgo1len, hgi1len, hcont, _⟩ :=
    seedLoop_some cov (w * h) hcov (w * h) 0 (List.replicate (w * h) 0)
      (List.replicate (w * h) 0) (by omega) (List.length_replicate _ _)
      (List.length_replicate _ _)
  have hbyte : ∀ j, j < w * h → cov.getD j 0 ≤ 255 := by
    intro j hj
    have hjc : j < cov.length := by omega
    rw [List.getD_eq_getElem?_getD, List.getElem?_eq_getElem hjc]
    simp only [Option.getD_some]
    exact hbytes _ (List.getElem_mem hjc)
  have hgo1vals : ∀ i, i < w * h → 0 ≤ go1.getD i 0 ∧ go1.getD i 0 ≤ INF := by
    intro i hi
    rw [(hcont i (by omega) hi).1]
    exact seedOuter_bounds _
  have hgi1vals : ∀ i, i < w * h → 0 ≤ gi1.getD i 0 ∧ gi1.getD i 0 ≤ INF := by
    intro i hi
    rw [(hcont i (by omega) hi).2]
    exact seedInner_bounds (hbyte i hi)
  have hsf : (scratchF w h).length = max w h := by
    rw [scratchF, List.length_replicate]
    rfl
  have hsv : (scratchV w h).length = max w h * 2 := by
    rw [scratchV, List.length_replicate]
    rfl
  have hsz : (scratchZ w h).length = max w h + 1 := by
    rw [scratchZ, List.length_replicate]
    rfl
  obtain ⟨fl1, vl1, zl1, hedt1Eq, hf1, hv1, hz1⟩ :=
    edtC_spec hdw hdh go1 (scratchF w h) (scratchV w h) (scratchZ w h) hgo1len hgo1vals
      (by omega) (by omega) (by omega)
  obtain ⟨fl2, vl2, zl2, hedt2Eq, _, _, _⟩ :=
    edtC_spec hdw hdh gi1 fl1 vl1 zl1 hgi1len hgi1vals
      (by omega) (by omega) (by omega)
  refine ⟨edt go1 w h, edt gi1 w h, ?_, ?_, ?_⟩
  · rw [sdfGrids, hseedEq]
    simp only [Option.bind_eq_bind, Option.some_bind]
    rw [hedt1Eq]
    simp only [Option.some_bind]
    rw [hedt2Eq]
    simp only [Option.some_bind]
  · rw [edt_length]
    exact hgo1len
  · rw [edt_length]
    exact hgi1len

theorem sdfGrids_none {w h : ℕ} (cov : List ℕ) (hcov : cov.length < w * h) :
    sdfGrids cov w h = none := by
  have hnone := seedLoop_none cov (w * h) hcov (cov.length - 0) 0
    (List.replicate (w * h) 0) (List.replicate (w * h) 0) (by omega) (by omega)
    (by rw [List.length_replicate]) (by rw [List.length_replicate])
  rw [sdfGrids, hnone]
  rfl

theorem seedLoop_take (cov : List ℕ) (n : ℕ) :
    ∀ m i go gi, n - i = m →
      seedLoop cov n i go gi = seedLoop (cov.take n) n i go gi := by
  intro m
  induction m with
  | zero =>
    intro i go gi hm
    rw [seedLoop, dif_neg (show ¬ (i < n) by omega)]
    rw [seedLoop, dif_neg (show ¬ (i < n) by omega)]
  | succ m ih =>
    intro i go gi hm
    have hin : i < n := by omega
    rw [seedLoop, dif_pos hin]
    rw [seedLoop, dif_pos hin]
    rw [List.getElem?_take_of_lt hin]
    rcases hcase : cov[i]? with _ | b
    · rfl
    · simp only [Option.bind_eq_bind, Option.some_bind]
      rcases hgo : setC go i (seedOuter b) with _ | go'
      · rfl
      · simp only [Option.some_bind]
        rcases hgi : setC gi i (seedInner b) with _ | gi'
        · rfl
        · simp only [Option.some_bind]
          exact ih (i + 1) go' gi' (by omega)

theorem toSdf_take (cov : List ℕ) (w h : ℕ) (radius : ℚ) :
    toSdf cov w h radius = toSdf (cov.take (w * h)) w h radius := by
  rw [toSdf, toSdf, sdfGrids, sdfGrids, seedLoop_take cov (w * h) (w * h - 0) 0 _ _ (by omega)]

theorem toSdf_length {w h : ℕ} {cov : List ℕ} {radius : ℚ} {out : List ℕ}
    (hout : toSdf cov w h radius = some out) : out.length = w * h := by
  rw [toSdf] at hout
  rcases hgg : sdfGrids cov w h with _ | gg
  · rw [hgg] at hout
    exact absurd hout (by simp)
  · rw [hgg] at hout
    simp only [Option.map_some'] at hout
    injection hout with hout
    rw [← hout, List.length_map, List.length_range]

theorem map_range_eq_replicate {F : ℕ → ℕ} {n c : ℕ} (hF : ∀ j, j < n → F j = c) :
    (List.range n).map F = List.replicate n c := by
  apply List.ext_getElem
  · rw [List.length_map, List.length_range, List.length_replicate]
  · intro j h1 h2
    rw [List.length_map, List.length_range] at h1
    rw [List.getElem_map, List.getElem_range, List.getElem_replicate]
    exact hF j h1

/-! ### The byte combination stage over the reals -/

theorem combinePixel_eq (o i radius : ℚ) : combinePixel o i radius =
    (⌊min (max ((1 / 2 - (Real.sqrt ((o : ℚ) : ℝ) - Real.sqrt ((i : ℚ) : ℝ)) /
      ((radius : ℚ) : ℝ)) * 255) 0) 255⌋).toNat := rfl

theorem sqrt_INF : Real.sqrt ((INF : ℚ) : ℝ) = 10 ^ 10 := by
  have h : ((INF : ℚ) : ℝ) = ((10 : ℝ) ^ 10) ^ 2 := by
    rw [INF]
    push_cast
    norm_num
  rw [h, Real.sqrt_sq (by norm_num : (0 : ℝ) ≤ 10 ^ 10)]

theorem combinePixel_INF_zero {r : ℚ} (hr : 0 < r) (hr9 : r ≤ 10 ^ 9) :
    combinePixel INF 0 r = 0 := by
  rw [combinePixel_eq, sqrt_INF]
  rw [show (((0 : ℚ) : ℝ)) = 0 by norm_num, Real.sqrt_zero]
  have hrR : (0 : ℝ) < ((r : ℚ) : ℝ) := by exact_mod_cast hr
  have hr9R : ((r : ℚ) : ℝ) ≤ 10 ^ 9 := by exact_mod_cast hr9
  have hdiv : (10 : ℝ) ≤ ((10 : ℝ) ^ 10 - 0) / ((r : ℚ) : ℝ) := by
    rw [le_div_iff₀ hrR]
    nlinarith
  have hneg : (1 / 2 - ((10 : ℝ) ^ 10 - 0) / ((r : ℚ) : ℝ)) * 255 ≤ 0 := by nlinarith
  rw [max_eq_right hneg, min_eq_left (by norm_num : (0 : ℝ) ≤ 255)]
  norm_num

theorem combinePixel_zero_INF {r : ℚ} (hr : 0 < r) (hr9 : r ≤ 10 ^ 9) :
    combinePixel 0 INF r = 255 := by
  rw [combinePixel_eq, sqrt_INF]
  rw [show (((0 : ℚ) : ℝ)) = 0 by norm_num, Real.sqrt_zero]
  have hrR : (0 : ℝ) < ((r : ℚ) : ℝ) := by exact_mod_cast hr
  have hr9R : ((r : ℚ) : ℝ) ≤ 10 ^ 9 := by exact_mod_cast hr9
  have hdiv : (10 : ℝ) ≤ (10 : ℝ) ^ 10 / ((r : ℚ) : ℝ) := by
    rw [le_div_iff₀ hrR]
    nlinarith
  have hbig : (255 : ℝ) ≤ (1 / 2 - (0 - (10 : ℝ) ^ 10) / ((r : ℚ) : ℝ)) * 255 := by
    have h0 : (0 - (10 : ℝ) ^ 10) / ((r : ℚ) : ℝ) = -((10 : ℝ) ^ 10 / ((r : ℚ) : ℝ)) := by
      ring
    rw [h0]
    nlinarith
  have h0le : (0 : ℝ) ≤ (1 / 2 - (0 - (10 : ℝ) ^ 10) / ((r : ℚ) : ℝ)) * 255 := by
    linarith
  rw [max_eq_left h0le, min_eq_right hbig]
  norm_num
  rfl

theorem combinePixel_mid_iff (o i r : ℚ) :
    (combinePixel o i r ≠ 0 ∧ combinePixel o i r ≠ 255) ↔
      (1 ≤ (1 / 2 - (Real.sqrt ((o : ℚ) : ℝ) - Real.sqrt ((i : ℚ) : ℝ)) /
          ((r : ℚ) : ℝ)) * 255 ∧
        (1 / 2 - (Real.sqrt ((o : ℚ) : ℝ) - Real.sqrt ((i : ℚ) : ℝ)) /
          ((r : ℚ) : ℝ)) * 255 < 255) := by
  rw [combinePixel_eq]
  set V : ℝ := (1 / 2 - (Real.sqrt ((o : ℚ) : ℝ) - Real.sqrt ((i : ℚ) : ℝ)) /
    ((r : ℚ) : ℝ)) * 255 with hV
  set C : ℝ := min (max V 0) 255 with hC
  have hC0 : 0 ≤ C := le_min (le_max_right _ _) (by norm_num)
  have hC255 : C ≤ 255 := min_le_right _ _
  have hfl0 : 0 ≤ ⌊C⌋ := Int.floor_nonneg.mpr hC0
  have hfl255 : ⌊C⌋ ≤ 255 := by
    calc ⌊C⌋ ≤ ⌊(255 : ℝ)⌋ := Int.floor_le_floor hC255
    _ = 255 := by norm_num
  constructor
  · rintro ⟨h0, h255⟩
    have hne0 : ⌊C⌋ ≠ 0 := fun he => h0 (by rw [he]; rfl)
    have hne255 : ⌊C⌋ ≠ 255 := fun he => h255 (by rw [he]; rfl)
    have h1C : 1 ≤ C := by
      by_contra hlt
      push_neg at hlt
      have hz : ⌊C⌋ = 0 := by
        have := Int.floor_le C
        have h2 : ⌊C⌋ < 1 := by
          have h3 : (⌊C⌋ : ℝ) ≤ C := Int.floor_le C
          by_contra hcc
          push_neg at hcc
          have h4 : (1 : ℝ) ≤ (⌊C⌋ : ℝ) := by exact_mod_cast hcc
          linarith
        omega
      exact hne0 hz
    have hC255' : C < 255 := by
      rcases lt_or_eq_of_le hC255 with h | h
      · exact h
      · exfalso
        apply hne255
        rw [h]
        norm_num
    have hV1 : 1 ≤ V := by
      have h1 : 1 ≤ max V 0 := (le_min_iff.mp (by rw [← hC]; exact h1C)).1
      rcases le_max_iff.mp h1 with h2 | h2
      · exact h2
      · norm_num at h2
    have hV255 : V < 255 := by
      have h1 : max V 0 < 255 ∨ (255 : ℝ) ≤ max V 0 := lt_or_ge _ _
      rcases h1 with h2 | h2
      · exact lt_of_le_of_lt (le_max_left V 0) h2
      · exfalso
        have : C = 255 := by
          rw [hC, min_eq_right h2]
        linarith
    exact ⟨hV1, hV255⟩
  · rintro ⟨hV1, hV255⟩
    have hCeq : C = V := by
      rw [hC, max_eq_left (by linarith : (0 : ℝ) ≤ V), min_eq_left (le_of_lt hV255)]
    constructor
    · intro he
      have hz : ⌊C⌋ = 0 := by omega
      have h1 : 1 ≤ ⌊C⌋ := by
        apply Int.le_floor.mpr
        rw [hCeq]
        exact_mod_cast hV1
      omega
    · intro he
      have hz : ⌊C⌋ = 255 := by omega
      have h1 : (255 : ℝ) ≤ C := by
        have h2 : ((255 : ℤ) : ℝ) ≤ C := by
          rw [← hz]
          exact Int.floor_le C
        exact_mod_cast h2
      rw [hCeq] at h1
      linarith

theorem inf'_reindex {s : Finset (ℕ × ℕ)} (H : s.Nonempty) (φ : ℕ × ℕ → ℕ × ℕ)
    (hmem : ∀ p ∈ s, φ p ∈ s) (hinv : ∀ p ∈ s, φ (φ p) = p) (F : ℕ × ℕ → ℚ) :
    s.inf' H F = s.inf' H (fun p => F (φ p)) := by
  apply le_antisymm
  · obtain ⟨p0, hp0, he⟩ := Finset.exists_mem_eq_inf' H (fun p => F (φ p))
    rw [he]
    exact Finset.inf'_le F (hmem p0 hp0)
  · obtain ⟨p0, hp0, he⟩ := Finset.exists_mem_eq_inf' H F
    rw [he]
    have hF : F p0 = F (φ (φ p0)) := by rw [hinv p0 hp0]
    rw [hF]
    exact Finset.inf'_le (fun p => F (φ p)) (hmem p0 hp0)

theorem inf'_dist_const {w h x y : ℕ} (hx : x < w) (hy : y < h) (c : ℚ) :
    Finset.inf' (Finset.range w ×ˢ Finset.range h)
      ((Finset.nonempty_range_iff.mpr (by omega)).product
        (Finset.nonempty_range_iff.mpr (by omega)))
      (fun p => c + ((x : ℚ) - (p.1 : ℚ)) ^ 2 + ((y : ℚ) - (p.2 : ℚ)) ^ 2) = c := by
  apply le_antisymm
  · have hmem : (x, y) ∈ Finset.range w ×ˢ Finset.range h :=
      Finset.mem_product.mpr ⟨Finset.mem_range.mpr hx, Finset.mem_range.mpr hy⟩
    refine le_trans (Finset.inf'_le _ hmem) ?_
    simp
  · apply Finset.le_inf'
    intro p _
    have h1 : (0 : ℚ) ≤ ((x : ℚ) - (p.1 : ℚ)) ^ 2 := sq_nonneg _
    have h2 : (0 : ℚ) ≤ ((y : ℚ) - (p.2 : ℚ)) ^ 2 := sq_nonneg _
    linarith

/-! ### Concrete evaluation helpers for short lines -/

theorem edt1dLine_two_sentinel {a b : ℚ} (hs : (b - a + 1) / 2 ≤ -INF) :
    edt1dLine [a, b] = [a, a + 1] := by
  set f : ℕ → ℚ := fun i => ([a, b] : List ℚ).getD i 0 with hfdef
  have hf0 : f 0 = a := rfl
  have hf1 : f 1 = b := rfl
  have hz0 : envInitZ 0 = -INF := rfl
  have hv0 : envInitV 0 = 0 := rfl
  have hsect : sect f 1 0 = (b - a + 1) / 2 := by
    rw [sect, hf1, hf0]
    norm_num
  have hpp : popPush f 1 0 envInitV envInitZ = ⟨0, envInitV, envInitZ⟩ := by
    rw [popPush, hv0, hsect, hz0, if_pos hs]
  have henv : envLoop f 2 1 0 envInitV envInitZ = ⟨0, envInitV, envInitZ⟩ := by
    rw [envLoop, dif_pos (by norm_num : (1:ℕ) < 2)]
    simp only [hpp]
    rw [envLoop, dif_neg (by norm_num : ¬ ((2:ℕ) < 2))]
  have hsw : sweepAux f envInitV envInitZ 2 2 0 0 = [a, a + 1] := by
    norm_num [sweepAux, advanceK, envInitZ, envInitV, parab, hf0, INF]
  rw [edt1dLine]
  simp only [List.length_cons, List.length_nil, ← hfdef]
  norm_num
  rw [henv]
  exact hsw

theorem edt1dLine_one (c : ℚ) : edt1dLine [c] = [c] := by
  set f : ℕ → ℚ := fun i => ([c] : List ℚ).getD i 0 with hfdef
  have hf0 : f 0 = c := rfl
  have henv : envLoop f 1 1 0 envInitV envInitZ = ⟨0, envInitV, envInitZ⟩ := by
    rw [envLoop, dif_neg (by norm_num : ¬ ((1:ℕ) < 1))]
  have hsw : sweepAux f envInitV envInitZ 1 1 0 0 = [c] := by
    norm_num [sweepAux, advanceK, envInitZ, envInitV, parab, hf0, INF]
  rw [edt1dLine]
  simp only [List.length_cons, List.length_nil, ← hfdef]
  norm_num
  rw [henv]
  exact hsw

theorem edt1dG_two_sentinel {a b : ℚ} (hs : (b - a + 1) / 2 ≤ -INF) :
    edt1dG [a, b] 0 1 2 = [a, a + 1] := by
  rw [edt1dG]
  have hline : lineOf [a, b] 0 1 2 = [a, b] := by
    rw [lineOf, show List.range 2 = [0, 1] from rfl]
    norm_num [List.getD]
  rw [hline, edt1dLine_two_sentinel hs]
  rw [writeSeq, writeSeq, writeSeq]
  norm_num

/-- No-pop run of the envelope construction on the spec's regression line
`[1000, 500, 100, 10, 0]`: all four parabolas are pushed and the stack top
ends at `k = 4` — the loop never pops, let alone down to `k = 0`. -/
theorem regLine_k4 :
    (envLoop (fun i => ([1000, 500, 100, 10, 0] : List ℚ).getD i 0) 5 1 0
      envInitV envInitZ).k = 4 := by
  set f : ℕ → ℚ := fun i => ([1000, 500, 100, 10, 0] : List ℚ).getD i 0 with hfdef
  have hf0 : f 0 = 1000 := rfl
  have hf1 : f 1 = 500 := rfl
  have hf2 : f 2 = 100 := rfl
  have hf3 : f 3 = 10 := rfl
  have hf4 : f 4 = 0 := rfl
  have hpp1 : popPush f 1 0 envInitV envInitZ = ⟨0 + 1, regV1, regZ1⟩ := by
    have hsect1 : sect f 1 (envInitV 0) = -499 / 2 := by
      show sect f 1 0 = -499 / 2
      rw [sect, hf1, hf0]
      norm_num
    have hz : envInitZ 0 = -INF := rfl
    rw [popPush, hsect1, hz, if_neg (show ¬ ((-499 / 2 : ℚ) ≤ -INF) by norm_num [INF])]
    rfl
  have hpp2 : popPush f 2 1 regV1 regZ1 = ⟨1 + 1, regV2, regZ2⟩ := by
    have hsect2 : sect f 2 (regV1 1) = -397 / 2 := by
      show sect f 2 1 = -397 / 2
      rw [sect, hf2, hf1]
      norm_num
    have hz : regZ1 1 = -499 / 2 := rfl
    rw [popPush, hsect2, hz, if_neg (show ¬ ((-397 / 2 : ℚ) ≤ -499 / 2) by norm_num)]
    rfl
  have hpp3 : popPush f 3 2 regV2 regZ2 = ⟨2 + 1, regV3, regZ3⟩ := by
    have hsect3 : sect f 3 (regV2 2) = -85 / 2 := by
      show sect f 3 2 = -85 / 2
      rw [sect, hf3, hf2]
      norm_num
    have hz : regZ2 2 = -397 / 2 := rfl
    rw [popPush, hsect3, hz, if_neg (show ¬ ((-85 / 2 : ℚ) ≤ -397 / 2) by norm_num)]
    rfl
  have hpp4 : popPush f 4 3 regV3 regZ3 = ⟨3 + 1, regV4, regZ4⟩ := by
    have hsect4 : sect f 4 (regV3 3) = -3 / 2 := by
      show sect f 4 3 = -3 / 2
      rw [sect, hf4, hf3]
      norm_num
    have hz : regZ3 3 = -85 / 2 := rfl
    rw [popPush, hsect4, hz, if_neg (show ¬ ((-3 / 2 : ℚ) ≤ -85 / 2) by norm_num)]
    rfl
  rw [envLoop, dif_pos (show (1:ℕ) < 5 by norm_num)]
  simp only [hpp1]
  show (envLoop f 5 2 1 regV1 regZ1).k = 4
  rw [envLoop, dif_pos (show (2:ℕ) < 5 by norm_num)]
  simp only [hpp2]
  show (envLoop f 5 3 2 regV2 regZ2).k = 4
  rw [envLoop, dif_pos (show (3:ℕ) < 5 by norm_num)]
  simp only [hpp3]
  show (envLoop f 5 4 3 regV3 regZ3).k = 4
  rw [envLoop, dif_pos (show (4:ℕ) < 5 by norm_num)]
  simp only [hpp4]
  show (envLoop f 5 5 4 regV4 regZ4).k = 4
  rw [envLoop, dif_neg (show ¬ ((5:ℕ) < 5) by norm_num)]

/-! ### Small list and index helpers -/

theorem getD_replicate {α : Type} [Inhabited α] {n i : ℕ} (h : i < n) (a d : α) :
    (List.replicate n a).getD i d = a := by
  rw [List.getD_eq_getElem?_getD, List.getElem?_replicate, if_pos h]
  rfl

theorem getD_map_range_byte (F : ℕ → ℕ) {n t : ℕ} (h : t < n) :
    ((List.range n).map F).getD t 0 = F t := by
  rw [List.getD_eq_getElem?_getD, List.getElem?_map, List.getElem?_range h]
  rfl

theorem idx_split {w h i : ℕ} (hw : 0 < w) (hi : i < w * h) :
    i % w < w ∧ i / w < h ∧ i / w * w + i % w = i := by
  refine ⟨Nat.mod_lt i hw, ?_, ?_⟩
  · rw [Nat.div_lt_iff_lt_mul hw]
    have hcomm : w * h = h * w := Nat.mul_comm w h
    omega
  · have h1 := Nat.div_add_mod i w
    have h2 : i / w * w = w * (i / w) := Nat.mul_comm _ _
    omega

theorem mirror_idx_eval {w a b : ℕ} (ha : a < w) :
    (b * w + a) / w = b ∧ (b * w + a) % w = a := by
  constructor
  · rw [Nat.add_comm, Nat.add_mul_div_right _ _ (show 0 < w by omega),
      Nat.div_eq_of_lt ha, Nat.zero_add]
  · rw [Nat.add_comm, Nat.add_mul_mod_self_right]
    exact Nat.mod_eq_of_lt ha

theorem hmirror_length (l : List ℕ) (w hh : ℕ) : (hmirror l w hh).length = w * hh := by
  rw [hmirror, List.length_map, List.length_range]

theorem hmirror_getD {cov : List ℕ} {w h x y : ℕ} (hx : x < w) (hy : y < h) :
    (hmirror cov w h).getD (y * w + x) 0 = cov.getD (y * w + (w - 1 - x)) 0 := by
  rw [hmirror, getD_map_range_byte _ (idx_row_lt hy hx)]
  obtain ⟨hdiv, hmod⟩ := @mirror_idx_eval w x y hx
  rw [hdiv, hmod]

theorem hmirror_bytesOK {cov : List ℕ} (h : BytesOK cov) (w hh : ℕ) :
    BytesOK (hmirror cov w hh) := by
  intro b hb
  rw [hmirror] at hb
  obtain ⟨i, hi, hbeq⟩ := List.mem_map.mp hb
  rw [← hbeq]
  by_cases hidx : i / w * w + (w - 1 - i % w) < cov.length
  · rw [List.getD_eq_getElem?_getD, List.getElem?_eq_getElem hidx]
    exact h _ (List.getElem_mem hidx)
  · rw [List.getD_eq_getElem?_getD, List.getElem?_eq_none (by omega)]
    norm_num

/-! ### The four seed values at exact coverage bytes -/

theorem seedOuter_zero : seedOuter 0 = INF := by
  rw [seedOuter]
  norm_num

theorem seedInner_zero : seedInner 0 = 0 := by
  rw [seedInner]
  norm_num

theorem seedOuter_255 : seedOuter 255 = 0 := by
  rw [seedOuter]
  norm_num

theorem seedInner_255 : seedInner 255 = INF := by
  rw [seedInner]
  norm_num

theorem seedOuter_128 : seedOuter 128 = 0 := by
  rw [seedOuter]
  norm_num [max_def]

theorem seedInner_128 : seedInner 128 = 1 / 260100 := by
  rw [seedInner]
  norm_num [max_def]

/-! ### `toSdf` on a single pixel -/

theorem inf'_single_point {F : ℕ × ℕ → ℚ}
    (H : (Finset.range 1 ×ˢ Finset.range 1).Nonempty) :
    Finset.inf' (Finset.range 1 ×ˢ Finset.range 1) H F = F (0, 0) := by
  apply le_antisymm
  · exact Finset.inf'_le _ (by decide)
  · apply Finset.le_inf'
    intro p hp
    obtain ⟨h1, h2⟩ := Finset.mem_product.mp hp
    have ha : p.1 = 0 := by
      have := Finset.mem_range.mp h1
      omega
    have hb : p.2 = 0 := by
      have := Finset.mem_range.mp h2
      omega
    rw [show p = ((0:ℕ), (0:ℕ)) from Prod.ext ha hb]

theorem toSdf_single (b : ℕ) (hb : b ≤ 255) (r : ℚ) :
    toSdf [b] 1 1 r = some [combinePixel (seedOuter b) (seedInner b) r] := by
  obtain ⟨go, gi, hEq, hgol, hgil, hpix⟩ :=
    sdfGrids_char [b] (show 1 * 1 ≤ ([b] : List ℕ).length by norm_num)
      (by intro c hc; fin_cases hc; exact hb)
      (by norm_num [DimOK]) (by norm_num [DimOK]) le_rfl le_rfl
  rw [toSdf, hEq]
  simp only [Option.map_some']
  congr 1
  show (List.range (1 * 1)).map (fun i => combinePixel (go.getD i 0) (gi.getD i 0) r) =
    [combinePixel (seedOuter b) (seedInner b) r]
  rw [show (1 * 1 : ℕ) = 1 from rfl, show List.range 1 = [0] from rfl]
  simp only [List.map_cons, List.map_nil]
  obtain ⟨hgo, hgi⟩ := hpix 0 0 (by norm_num) (by norm_num)
  rw [show (0 * 1 + 0 : ℕ) = 0 from rfl] at hgo hgi
  rw [hgo, hgi, inf'_single_point, inf'_single_point]
  norm_num [List.getD]

theorem combine_gray_one : combinePixel 0 (1 / 260100) 1 = 128 := by
  rw [combinePixel_eq]
  have h0 : Real.sqrt (((0:ℚ)) : ℝ) = 0 := by
    rw [show ((((0:ℚ)) : ℝ)) = 0 by norm_num, Real.sqrt_zero]
  have h2 : Real.sqrt (((1 / 260100 : ℚ)) : ℝ) = 1 / 510 := by
    rw [show ((((1 / 260100 : ℚ)) : ℝ)) = (1 / 510 : ℝ) ^ 2 by push_cast; norm_num]
    exact Real.sqrt_sq (by norm_num)
  rw [h0, h2, show ((((1:ℚ)) : ℝ)) = 1 by norm_num]
  have hv : (1 / 2 - (0 - 1 / 510 : ℝ) / 1) * 255 = 128 := by norm_num
  rw [hv, max_eq_left (by norm_num : (0:ℝ) ≤ 128),
    min_eq_left (by norm_num : (128:ℝ) ≤ 255)]
  norm_num
  rfl

theorem combine_gray_two : combinePixel 0 (1 / 260100) 2 = 127 := by
  rw [combinePixel_eq]
  have h0 : Real.sqrt (((0:ℚ)) : ℝ) = 0 := by
    rw [show ((((0:ℚ)) : ℝ)) = 0 by norm_num, Real.sqrt_zero]
  have h2 : Real.sqrt (((1 / 260100 : ℚ)) : ℝ) = 1 / 510 := by
    rw [show ((((1 / 260100 : ℚ)) : ℝ)) = (1 / 510 : ℝ) ^ 2 by push_cast; norm_num]
    exact Real.sqrt_sq (by norm_num)
  rw [h0, h2, show ((((2:ℚ)) : ℝ)) = 2 by norm_num]
  have hv : (1 / 2 - (0 - 1 / 510 : ℝ) / 2) * 255 = 511 / 4 := by norm_num
  rw [hv, max_eq_left (by norm_num : (0:ℝ) ≤ 511 / 4),
    min_eq_left (by norm_num : (511 / 4 : ℝ) ≤ 255)]
  rw [show ⌊(511 / 4 : ℝ)⌋ = 127 by rw [Int.floor_eq_iff]; constructor <;> norm_num]
  rfl

theorem toSdf_gray_one : toSdf [128] 1 1 1 = some [128] := by
  rw [toSdf_single 128 (by norm_num) 1, seedOuter_128, seedInner_128, combine_gray_one]

theorem toSdf_gray_two : toSdf [128] 1 1 2 = some [127] := by
  rw [toSdf_single 128 (by norm_num) 2, seedOuter_128, seedInner_128, combine_gray_two]

/-! ### Mirrored minima -/

theorem mirror_inf'_seed (sd : ℕ → ℚ) (cov : List ℕ) {w h x y : ℕ}
    (hw : 1 ≤ w) (hh : 1 ≤ h) (hx : x < w) (hy : y < h) :
    Finset.inf' (Finset.range w ×ˢ Finset.range h)
      ((Finset.nonempty_range_iff.mpr (by omega)).product
        (Finset.nonempty_range_iff.mpr (by omega)))
      (fun p => sd ((hmirror cov w h).getD (p.2 * w + p.1) 0) +
        ((x : ℚ) - (p.1 : ℚ)) ^ 2 + ((y : ℚ) - (p.2 : ℚ)) ^ 2) =
    Finset.inf' (Finset.range w ×ˢ Finset.range h)
      ((Finset.nonempty_range_iff.mpr (by omega)).product
        (Finset.nonempty_range_iff.mpr (by omega)))
      (fun p => sd (cov.getD (p.2 * w + p.1) 0) +
        (((w - 1 - x : ℕ) : ℚ) - (p.1 : ℚ)) ^ 2 + ((y : ℚ) - (p.2 : ℚ)) ^ 2) := by
  have hmem : ∀ p ∈ Finset.range w ×ˢ Finset.range h,
      (fun p : ℕ × ℕ => (w - 1 - p.1, p.2)) p ∈ Finset.range w ×ˢ Finset.range h := by
    intro p hp
    obtain ⟨h1, h2⟩ := Finset.mem_product.mp hp
    have h1' := Finset.mem_range.mp h1
    refine Finset.mem_product.mpr ⟨Finset.mem_range.mpr ?_, ?_⟩
    · show w - 1 - p.1 < w
      omega
    · exact h2
  have hinv : ∀ p ∈ Finset.range w ×ˢ Finset.range h,
      (fun p : ℕ × ℕ => (w - 1 - p.1, p.2)) ((fun p : ℕ × ℕ => (w - 1 - p.1, p.2)) p)
        = p := by
    intro p hp
    obtain ⟨h1, h2⟩ := Finset.mem_product.mp hp
    have h1' := Finset.mem_range.mp h1
    obtain ⟨pa, pb⟩ := p
    have h1'' : pa < w := h1'
    show ((w - 1 - (w - 1 - pa), pb) : ℕ × ℕ) = (pa, pb)
    rw [show w - 1 - (w - 1 - pa) = pa by omega]
  have h2 := inf'_reindex
    ((Finset.nonempty_range_iff.mpr (show w ≠ 0 by omega)).product
      (Finset.nonempty_range_iff.mpr (show h ≠ 0 by omega)))
    (fun p : ℕ × ℕ => (w - 1 - p.1, p.2)) hmem hinv
    (fun p => sd (cov.getD (p.2 * w + p.1) 0) +
      (((w - 1 - x : ℕ) : ℚ) - (p.1 : ℚ)) ^ 2 + ((y : ℚ) - (p.2 : ℚ)) ^ 2)
  rw [h2]
  apply Finset.inf'_congr _ rfl
  intro p hp
  obtain ⟨h1, h2⟩ := Finset.mem_product.mp hp
  have hp1 := Finset.mem_range.mp h1
  have hp2 := Finset.mem_range.mp h2
  simp only []
  rw [hmirror_getD hp1 hp2]
  have hc1 : ((w - 1 - x : ℕ) : ℚ) = (w : ℚ) - 1 - (x : ℚ) := by
    rw [Nat.cast_sub (by omega : x ≤ w - 1), Nat.cast_sub (by omega : 1 ≤ w),
      Nat.cast_one]
  have hc2 : ((w - 1 - p.1 : ℕ) : ℚ) = (w : ℚ) - 1 - (p.1 : ℚ) := by
    rw [Nat.cast_sub (by omega : p.1 ≤ w - 1), Nat.cast_sub (by omega : 1 ≤ w),
      Nat.cast_one]
  rw [hc1, hc2]
  ring

/-! ### The claims -/

/-- C1 (amended): for dimensions at least `1` (and within the slice bound
`2^63`) and seed values in `[0, INF]` — the range every grid inside `to_sdf`
actually has — `edt` computes the exact 2-D squared Euclidean distance
transform: the value at pixel `(x, y)` is the minimum over all pixels
`(x', y')` of the seed at `(x', y')` plus `(x - x')^2 + (y - y')^2`.  For
merely "finite non-negative" seeds the statement is false: values at or above
the sentinel scale `1e20` break the envelope construction (see the
counterexample). -/
theorem C1_edt_exact {w h : ℕ} (g : List ℚ) (hw : 1 ≤ w) (hh : 1 ≤ h)
    (hdw : DimOK w) (hdh : DimOK h) (hlen : g.length = w * h)
    (hvals : ∀ i, i < w * h → 0 ≤ g.getD i 0 ∧ g.getD i 0 ≤ INF)
    {x y : ℕ} (hx : x < w) (hy : y < h) :
    (edt g w h).getD (y * w + x) 0 =
      Finset.inf' (Finset.range w ×ˢ Finset.range h)
        ((Finset.nonempty_range_iff.mpr (by omega)).product
          (Finset.nonempty_range_iff.mpr (by omega)))
        (fun p => g.getD (p.2 * w + p.1) 0 + ((x : ℚ) - (p.1 : ℚ)) ^ 2 +
          ((y : ℚ) - (p.2 : ℚ)) ^ 2) :=
  edt_correct g hw hh hdw hdh hlen hvals hx hy

/-- C1, witness: the amended theorem applied to the 1×1 grid `[0]`. -/
theorem C1_witness :
    (edt [(0:ℚ)] 1 1).getD (0 * 1 + 0) 0 =
      Finset.inf' (Finset.range 1 ×ˢ Finset.range 1)
        ((Finset.nonempty_range_iff.mpr (by norm_num)).product
          (Finset.nonempty_range_iff.mpr (by norm_num)))
        (fun p => ([(0:ℚ)] : List ℚ).getD (p.2 * 1 + p.1) 0 +
          (((0:ℕ) : ℚ) - (p.1 : ℚ)) ^ 2 + (((0:ℕ) : ℚ) - (p.2 : ℚ)) ^ 2) :=
  @C1_edt_exact 1 1 [(0:ℚ)] (le_refl 1) (le_refl 1) (by norm_num [DimOK])
    (by norm_num [DimOK]) rfl
    (by
      intro i hi
      obtain rfl : i = 0 := by omega
      exact ⟨le_refl 0, le_of_lt INF_pos⟩)
    0 0 (by norm_num) (by norm_num)

/-- C1, counterexample: on the 2×1 grid `[5e20, 0]` — finite non-negative
seeds, as the claim requires — `edt` stores `5e20 + 1` at pixel `(1, 0)`,
but the true minimum there is `0` (attained at the pixel itself), because the
value `5e20` overwhelms the sentinel `INF = 1e20` in the envelope
construction. -/
theorem C1_counterexample :
    ((0:ℚ) ≤ 5 * 10 ^ 20 ∧ (0:ℚ) ≤ 0) ∧
    (edt [5 * 10 ^ 20, (0:ℚ)] 2 1).getD (0 * 2 + 1) 0 ≠
      Finset.inf' (Finset.range 2 ×ˢ Finset.range 1)
        ((Finset.nonempty_range_iff.mpr (by norm_num)).product
          (Finset.nonempty_range_iff.mpr (by norm_num)))
        (fun p => ([5 * 10 ^ 20, (0:ℚ)] : List ℚ).getD (p.2 * 2 + p.1) 0 +
          (((1:ℕ) : ℚ) - (p.1 : ℚ)) ^ 2 + (((0:ℕ) : ℚ) - (p.2 : ℚ)) ^ 2) := by
  refine ⟨⟨by norm_num, le_refl 0⟩, ?_⟩
  have h1 : edt1dG [5 * 10 ^ 20, (0:ℚ)] 0 2 1 = [5 * 10 ^ 20, (0:ℚ)] := by
    rw [edt1dG]
    have hl : lineOf [5 * 10 ^ 20, (0:ℚ)] 0 2 1 = [5 * 10 ^ 20] := by
      rw [lineOf, show List.range 1 = [0] from rfl]
      norm_num [List.getD]
    rw [hl, edt1dLine_one]
    rw [writeSeq, writeSeq]
    norm_num
  have h2 : edt1dG [5 * 10 ^ 20, (0:ℚ)] 1 2 1 = [5 * 10 ^ 20, (0:ℚ)] := by
    rw [edt1dG]
    have hl : lineOf [5 * 10 ^ 20, (0:ℚ)] 1 2 1 = [(0:ℚ)] := by
      rw [lineOf, show List.range 1 = [0] from rfl]
      norm_num [List.getD]
    rw [hl, edt1dLine_one]
    rw [writeSeq, writeSeq]
    norm_num
  have hcol : colLoop 2 1 0 [5 * 10 ^ 20, (0:ℚ)] = [5 * 10 ^ 20, (0:ℚ)] := by
    rw [colLoop, dif_pos (show (0:ℕ) < 2 by norm_num), h1]
    show colLoop 2 1 1 [5 * 10 ^ 20, (0:ℚ)] = [5 * 10 ^ 20, (0:ℚ)]
    rw [colLoop, dif_pos (show (1:ℕ) < 2 by norm_num), h2]
    show colLoop 2 1 2 [5 * 10 ^ 20, (0:ℚ)] = [5 * 10 ^ 20, (0:ℚ)]
    rw [colLoop, dif_neg (show ¬ ((2:ℕ) < 2) by norm_num)]
  have hrow : rowLoop 2 1 0 [5 * 10 ^ 20, (0:ℚ)] =
      [5 * 10 ^ 20, 5 * 10 ^ 20 + 1] := by
    rw [rowLoop, dif_pos (show (0:ℕ) < 1 by norm_num)]
    rw [show (0 * 2 : ℕ) = 0 from rfl]
    rw [edt1dG_two_sentinel
      (show ((0:ℚ) - 5 * 10 ^ 20 + 1) / 2 ≤ -INF by norm_num [INF])]
    show rowLoop 2 1 1 [5 * 10 ^ 20, 5 * 10 ^ 20 + 1] =
      [5 * 10 ^ 20, 5 * 10 ^ 20 + 1]
    rw [rowLoop, dif_neg (show ¬ ((1:ℕ) < 1) by norm_num)]
  have hval : (edt [5 * 10 ^ 20, (0:ℚ)] 2 1).getD (0 * 2 + 1) 0 =
      5 * 10 ^ 20 + 1 := by
    rw [edt, hcol, hrow]
    norm_num [List.getD]
  have hle : Finset.inf' (Finset.range 2 ×ˢ Finset.range 1)
      ((Finset.nonempty_range_iff.mpr (by norm_num)).product
        (Finset.nonempty_range_iff.mpr (by norm_num)))
      (fun p => ([5 * 10 ^ 20, (0:ℚ)] : List ℚ).getD (p.2 * 2 + p.1) 0 +
        (((1:ℕ) : ℚ) - (p.1 : ℚ)) ^ 2 + (((0:ℕ) : ℚ) - (p.2 : ℚ)) ^ 2) ≤ 0 := by
    refine le_trans (Finset.inf'_le _
      (show ((1:ℕ), (0:ℕ)) ∈ Finset.range 2 ×ˢ Finset.range 1 by decide)) ?_
    norm_num [List.getD]
  intro heq
  rw [hval] at heq
  rw [← heq] at hle
  norm_num at hle

/-- C2 (amended): for a strided line of length at least `1` (within the
slice bound) whose values lie in `[0, INF]`, `edt1d` writes at every index
`q` (addressed as `grid[offset + q*stride]`) exactly the brute-force minimum
over `r` of `f(r) + (q - r)^2`; this covers lengths `1` and `2`.  For lines
of arbitrary "finite" values the statement is false at the sentinel scale
(see the counterexample). -/
theorem C2_edt1d_brute (grid : List ℚ) (offset stride L : ℕ) (hst : 1 ≤ stride)
    (hL : 1 ≤ L) (hd : DimOK L)
    (hbound : ∀ t, t < L → offset + t * stride < grid.length)
    (hvals : ∀ t, t < L → 0 ≤ grid.getD (offset + t * stride) 0 ∧
      grid.getD (offset + t * stride) 0 ≤ INF)
    {t : ℕ} (ht : t < L) :
    (edt1dG grid offset stride L).getD (offset + t * stride) 0 =
      Finset.inf' (Finset.range L) (Finset.nonempty_range_iff.mpr (by omega))
        (fun r => grid.getD (offset + r * stride) 0 + ((t : ℚ) - (r : ℚ)) ^ 2) :=
  edt1dG_hit grid offset stride L hst hL hd hbound hvals ht

/-- C2, witness: the amended theorem on the length-1 line `[0]`. -/
theorem C2_witness :
    (edt1dG [(0:ℚ)] 0 1 1).getD (0 + 0 * 1) 0 =
      Finset.inf' (Finset.range 1) (Finset.nonempty_range_iff.mpr (by norm_num))
        (fun r => ([(0:ℚ)] : List ℚ).getD (0 + r * 1) 0 +
          (((0:ℕ) : ℚ) - (r : ℚ)) ^ 2) :=
  @C2_edt1d_brute [(0:ℚ)] 0 1 1 (le_refl 1) (le_refl 1) (by norm_num [DimOK])
    (by
      intro t ht
      simp only [List.length_cons, List.length_nil]
      omega)
    (by
      intro t ht
      obtain rfl : t = 0 := by omega
      exact ⟨le_refl 0, le_of_lt INF_pos⟩)
    0 (by norm_num)

/-- C2, counterexample: on the line `[3e20, 0]` (offset `0`, stride `1`,
length `2` — all values finite), `edt1d` writes `3e20 + 1` at index `1`,
but the brute-force minimum there is `0`: the bogus intersection abscissa
falls below the sentinel `z[0] = -1e20`, so parabola `1` is never pushed. -/
theorem C2_counterexample :
    (edt1dG [3 * 10 ^ 20, (0:ℚ)] 0 1 2).getD (0 + 1 * 1) 0 ≠
      Finset.inf' (Finset.range 2) (Finset.nonempty_range_iff.mpr (by norm_num))
        (fun r => ([3 * 10 ^ 20, (0:ℚ)] : List ℚ).getD (0 + r * 1) 0 +
          (((1:ℕ) : ℚ) - (r : ℚ)) ^ 2) := by
  have hval : (edt1dG [3 * 10 ^ 20, (0:ℚ)] 0 1 2).getD (0 + 1 * 1) 0 =
      3 * 10 ^ 20 + 1 := by
    rw [edt1dG_two_sentinel
      (show ((0:ℚ) - 3 * 10 ^ 20 + 1) / 2 ≤ -INF by norm_num [INF])]
    norm_num [List.getD]
  have hle : Finset.inf' (Finset.range 2)
      (Finset.nonempty_range_iff.mpr (by norm_num))
      (fun r => ([3 * 10 ^ 20, (0:ℚ)] : List ℚ).getD (0 + r * 1) 0 +
        (((1:ℕ) : ℚ) - (r : ℚ)) ^ 2) ≤ 0 := by
    refine le_trans (Finset.inf'_le _
      (show (1:ℕ) ∈ Finset.range 2 by decide)) ?_
    norm_num [List.getD]
  intro heq
  rw [hval] at heq
  rw [← heq] at hle
  norm_num at hle

/-- C3 (amended): `to_sdf` performs no input validation at all.  Whenever the
coverage holds at least `width * height` bytes, it returns normally — also
when `coverage.len()` is strictly larger than `width * height` and also for
zero or negative radius; there is no `InvalidDimensions` or
`NonPositiveRadius` error path in the code. -/
theorem C3_no_validation (cov : List ℕ) (w h : ℕ) (radius : ℚ)
    (hcov : w * h ≤ cov.length) (hbytes : BytesOK cov)
    (hdw : DimOK w) (hdh : DimOK h) :
    (toSdf cov w h radius).isSome = true := by
  obtain ⟨go, gi, hEq, _, _⟩ := sdfGrids_isSome cov hcov hbytes hdw hdh
  rw [toSdf, hEq]
  rfl

/-- C3, witness: `to_sdf` succeeds on `[0]` with the degenerate radius `0`. -/
theorem C3_witness : (toSdf [0] 1 1 0).isSome = true :=
  C3_no_validation [0] 1 1 0 (by norm_num)
    (by intro b hb; fin_cases hb; norm_num)
    (by norm_num [DimOK]) (by norm_num [DimOK])

/-- C3, counterexample: `to_sdf` raises no error on a coverage of the wrong
size (`2` bytes for a 1×1 bitmap: the surplus is silently ignored) and no
error on a negative radius — both calls return normally, contradicting the
claimed fail-fast `InvalidDimensions` / `NonPositiveRadius` checks. -/
theorem C3_counterexample :
    ([0, 0] : List ℕ).length ≠ 1 * 1 ∧ (toSdf [0, 0] 1 1 1).isSome = true ∧
      (toSdf [0] 1 1 (-1)).isSome = true := by
  refine ⟨by norm_num, ?_, ?_⟩
  · obtain ⟨go, gi, hEq, _, _⟩ := sdfGrids_isSome [0, 0]
      (show 1 * 1 ≤ ([0, 0] : List ℕ).length by norm_num)
      (by intro b hb; fin_cases hb <;> norm_num)
      (by norm_num [DimOK]) (by norm_num [DimOK])
    rw [toSdf, hEq]
    rfl
  · obtain ⟨go, gi, hEq, _, _⟩ := sdfGrids_isSome [0]
      (show 1 * 1 ≤ ([0] : List ℕ).length by norm_num)
      (by intro b hb; fin_cases hb; norm_num)
      (by norm_num [DimOK]) (by norm_num [DimOK])
    rw [toSdf, hEq]
    rfl

/-- C4 (amended): for every strided line (length in `1..2^63`, values in
`[0, INF]`) the fully bounds-checked `edt1d` returns without any
out-of-bounds access or stack-counter underflow — the `k == 0` break keeps
the sentinel base entry — and the stored results are the brute-force minima.
The line `[1000, 500, 100, 10, 0]` of the original claim does **not** force
pops: the envelope loop performs zero pops on it (first counterexample
conjunct), and sentinel-scale values break correctness (second conjunct). -/
theorem C4_pop_guard_safe (grid : List ℚ) (offset stride L : ℕ) (hst : 1 ≤ stride)
    (hL : 1 ≤ L) (hd : DimOK L)
    (hbound : ∀ t, t < L → offset + t * stride < grid.length)
    (hvals : ∀ t, t < L → 0 ≤ grid.getD (offset + t * stride) 0 ∧
      grid.getD (offset + t * stride) 0 ≤ INF)
    (fl : List ℚ) (vl : List ℕ) (zl : List ℚ)
    (hfl : L ≤ fl.length) (hvl : L ≤ vl.length) (hzl : L + 1 ≤ zl.length)
    (hvl0 : 0 < vl.length) (hzl1 : 1 < zl.length) :
    ∃ g fl' vl' zl', edt1dC grid offset stride L fl vl zl =
        some (g, fl', vl', zl') ∧
      ∀ t, t < L → g.getD (offset + t * stride) 0 =
        Finset.inf' (Finset.range L) (Finset.nonempty_range_iff.mpr (by omega))
          (fun r => grid.getD (offset + r * stride) 0 +
            ((t : ℚ) - (r : ℚ)) ^ 2) := by
  obtain ⟨fl', vl', zl', hEq, _, _, _⟩ :=
    edt1dC_spec grid offset stride L hbound hvals hd fl vl zl hfl hvl hzl hvl0 hzl1
  refine ⟨edt1dG grid offset stride L, fl', vl', zl', hEq, ?_⟩
  intro t ht
  exact edt1dG_hit grid offset stride L hst hL hd hbound hvals ht

/-- C4, witness: the amended theorem on the monotonically decreasing
regression line `[1000, 500, 100, 10, 0]` with the scratch buffers sized as
`to_sdf` allocates them. -/
theorem C4_witness :
    ∃ g fl' vl' zl', edt1dC [1000, 500, 100, 10, 0] 0 1 5
        (List.replicate 5 0) (List.replicate 10 0) (List.replicate 6 0) =
        some (g, fl', vl', zl') ∧
      ∀ t, t < 5 → g.getD (0 + t * 1) 0 =
        Finset.inf' (Finset.range 5) (Finset.nonempty_range_iff.mpr (by norm_num))
          (fun r => ([1000, 500, 100, 10, 0] : List ℚ).getD (0 + r * 1) 0 +
            ((t : ℚ) - (r : ℚ)) ^ 2) :=
  C4_pop_guard_safe [1000, 500, 100, 10, 0] 0 1 5 (le_refl 1) (by norm_num)
    (by norm_num [DimOK])
    (by
      intro t ht
      simp only [List.length_cons, List.length_nil]
      omega)
    (by
      intro t ht
      interval_cases t <;> exact ⟨by norm_num [List.getD], by norm_num [List.getD, INF]⟩)
    (List.replicate 5 0) (List.replicate 10 0) (List.replicate 6 0)
    (by simp) (by simp) (by simp) (by simp) (by simp)

/-- C4, counterexample: the envelope loop on `[1000, 500, 100, 10, 0]`
finishes with stack top `k = 4` — every parabola pushed, zero pops, so this
line does **not** "force repeated pops down to k == 0"; and on the finite
line `[4e20, 0]` `edt1d` does not produce the brute-force minimum at
index `1`. -/
theorem C4_counterexample :
    (envLoop (fun i => ([1000, 500, 100, 10, 0] : List ℚ).getD i 0) 5 1 0
      envInitV envInitZ).k = 4 ∧
    (edt1dG [4 * 10 ^ 20, (0:ℚ)] 0 1 2).getD (0 + 1 * 1) 0 ≠
      Finset.inf' (Finset.range 2) (Finset.nonempty_range_iff.mpr (by norm_num))
        (fun r => ([4 * 10 ^ 20, (0:ℚ)] : List ℚ).getD (0 + r * 1) 0 +
          (((1:ℕ) : ℚ) - (r : ℚ)) ^ 2) := by
  refine ⟨regLine_k4, ?_⟩
  have hval : (edt1dG [4 * 10 ^ 20, (0:ℚ)] 0 1 2).getD (0 + 1 * 1) 0 =
      4 * 10 ^ 20 + 1 := by
    rw [edt1dG_two_sentinel
      (show ((0:ℚ) - 4 * 10 ^ 20 + 1) / 2 ≤ -INF by norm_num [INF])]
    norm_num [List.getD]
  have hle : Finset.inf' (Finset.range 2)
      (Finset.nonempty_range_iff.mpr (by norm_num))
      (fun r => ([4 * 10 ^ 20, (0:ℚ)] : List ℚ).getD (0 + r * 1) 0 +
        (((1:ℕ) : ℚ) - (r : ℚ)) ^ 2) ≤ 0 := by
    refine le_trans (Finset.inf'_le _
      (show (1:ℕ) ∈ Finset.range 2 by decide)) ?_
    norm_num [List.getD]
  intro heq
  rw [hval] at heq
  rw [← heq] at hle
  norm_num at hle

/-- C5: for dimensions at least `1` (within the slice bound) and a positive
radius of ordinary magnitude (`r ≤ 1e9`, far below the sentinel scale),
`to_sdf` of an all-`0` coverage is the constant byte field `0` (the `0.0`
clamp extreme) and `to_sdf` of an all-`255` coverage is the constant byte
field `255` (the `1.0` clamp extreme). -/
theorem C5_uniform_extremes {w h : ℕ} {r : ℚ} (hw : 1 ≤ w) (hh : 1 ≤ h)
    (hdw : DimOK w) (hdh : DimOK h) (hr : 0 < r) (hr9 : r ≤ 10 ^ 9) :
    toSdf (List.replicate (w * h) 0) w h r = some (List.replicate (w * h) 0) ∧
    toSdf (List.replicate (w * h) 255) w h r =
      some (List.replicate (w * h) 255) := by
  have hne : (Finset.range w ×ˢ Finset.range h).Nonempty :=
    (Finset.nonempty_range_iff.mpr (by omega)).product
      (Finset.nonempty_range_iff.mpr (by omega))
  constructor
  · obtain ⟨go, gi, hEq, hgol, hgil, hpix⟩ :=
      sdfGrids_char (List.replicate (w * h) 0)
        (show w * h ≤ (List.replicate (w * h) (0:ℕ)).length by
          rw [List.length_replicate])
        (by intro b hb; rw [List.eq_of_mem_replicate hb] <;> norm_num) hdw hdh hw hh
    rw [toSdf, hEq]
    simp only [Option.map_some']
    congr 1
    apply map_range_eq_replicate
    intro j hj
    obtain ⟨hxw, hyh, hsplit⟩ := idx_split (by omega) hj
    conv_lhs => rw [show j = j / w * w + j % w from hsplit.symm]
    obtain ⟨hgo, hgi⟩ := hpix (j % w) (j / w) hxw hyh
    rw [hgo, hgi]
    have hO : ∀ p ∈ Finset.range w ×ˢ Finset.range h,
        seedOuter ((List.replicate (w * h) (0:ℕ)).getD (p.2 * w + p.1) 0) +
          (((j % w : ℕ) : ℚ) - (p.1 : ℚ)) ^ 2 +
          (((j / w : ℕ) : ℚ) - (p.2 : ℚ)) ^ 2 =
        INF + (((j % w : ℕ) : ℚ) - (p.1 : ℚ)) ^ 2 +
          (((j / w : ℕ) : ℚ) - (p.2 : ℚ)) ^ 2 := by
      intro p hp
      obtain ⟨h1, h2⟩ := Finset.mem_product.mp hp
      rw [getD_replicate
        (idx_row_lt (Finset.mem_range.mp h2) (Finset.mem_range.mp h1)) 0 0,
        seedOuter_zero]
    have hI : ∀ p ∈ Finset.range w ×ˢ Finset.range h,
        seedInner ((List.replicate (w * h) (0:ℕ)).getD (p.2 * w + p.1) 0) +
          (((j % w : ℕ) : ℚ) - (p.1 : ℚ)) ^ 2 +
          (((j / w : ℕ) : ℚ) - (p.2 : ℚ)) ^ 2 =
        0 + (((j % w : ℕ) : ℚ) - (p.1 : ℚ)) ^ 2 +
          (((j / w : ℕ) : ℚ) - (p.2 : ℚ)) ^ 2 := by
      intro p hp
      obtain ⟨h1, h2⟩ := Finset.mem_product.mp hp
      rw [getD_replicate
        (idx_row_lt (Finset.mem_range.mp h2) (Finset.mem_range.mp h1)) 0 0,
        seedInner_zero]
    have hgo' := Eq.trans (Finset.inf'_congr hne rfl hO)
      (inf'_dist_const hxw hyh INF)
    have hgi' := Eq.trans (Finset.inf'_congr hne rfl hI)
      (inf'_dist_const hxw hyh 0)
    rw [hgo', hgi']
    exact combinePixel_INF_zero hr hr9
  · obtain ⟨go, gi, hEq, hgol, hgil, hpix⟩ :=
      sdfGrids_char (List.replicate (w * h) 255)
        (show w * h ≤ (List.replicate (w * h) (255:ℕ)).length by
          rw [List.length_replicate])
        (by intro b hb; rw [List.eq_of_mem_replicate hb] <;> norm_num) hdw hdh hw hh
    rw [toSdf, hEq]
    simp only [Option.map_some']
    congr 1
    apply map_range_eq_replicate
    intro j hj
    obtain ⟨hxw, hyh, hsplit⟩ := idx_split (by omega) hj
    conv_lhs => rw [show j = j / w * w + j % w from hsplit.symm]
    obtain ⟨hgo, hgi⟩ := hpix (j % w) (j / w) hxw hyh
    rw [hgo, hgi]
    have hO : ∀ p ∈ Finset.range w ×ˢ Finset.range h,
        seedOuter ((List.replicate (w * h) (255:ℕ)).getD (p.2 * w + p.1) 0) +
          (((j % w : ℕ) : ℚ) - (p.1 : ℚ)) ^ 2 +
          (((j / w : ℕ) : ℚ) - (p.2 : ℚ)) ^ 2 =
        0 + (((j % w : ℕ) : ℚ) - (p.1 : ℚ)) ^ 2 +
          (((j / w : ℕ) : ℚ) - (p.2 : ℚ)) ^ 2 := by
      intro p hp
      obtain ⟨h1, h2⟩ := Finset.mem_product.mp hp
      rw [getD_replicate
        (idx_row_lt (Finset.mem_range.mp h2) (Finset.mem_range.mp h1)) 255 0,
        seedOuter_255]
    have hI : ∀ p ∈ Finset.range w ×ˢ Finset.range h,
        seedInner ((List.replicate (w * h) (255:ℕ)).getD (p.2 * w + p.1) 0) +
          (((j % w : ℕ) : ℚ) - (p.1 : ℚ)) ^ 2 +
          (((j / w : ℕ) : ℚ) - (p.2 : ℚ)) ^ 2 =
        INF + (((j % w : ℕ) : ℚ) - (p.1 : ℚ)) ^ 2 +
          (((j / w : ℕ) : ℚ) - (p.2 : ℚ)) ^ 2 := by
      intro p hp
      obtain ⟨h1, h2⟩ := Finset.mem_product.mp hp
      rw [getD_replicate
        (idx_row_lt (Finset.mem_range.mp h2) (Finset.mem_range.mp h1)) 255 0,
        seedInner_255]
    have hgo' := Eq.trans (Finset.inf'_congr hne rfl hO)
      (inf'_dist_const hxw hyh 0)
    have hgi' := Eq.trans (Finset.inf'_congr hne rfl hI)
      (inf'_dist_const hxw hyh INF)
    rw [hgo', hgi']
    exact combinePixel_zero_INF hr hr9

/-- C5, witness: the 1×1 bitmaps at radius `1`. -/
theorem C5_witness :
    toSdf (List.replicate (1 * 1) 0) 1 1 1 = some (List.replicate (1 * 1) 0) ∧
    toSdf (List.replicate (1 * 1) 255) 1 1 1 =
      some (List.replicate (1 * 1) 255) :=
  C5_uniform_extremes (le_refl 1) (le_refl 1) (by norm_num [DimOK])
    (by norm_num [DimOK]) (by norm_num) (by norm_num)

/-- C6: for every `width × height` coverage bitmap (bytes in range,
dimensions at least `1` and within the slice bound) and positive radius,
`to_sdf` of the horizontally mirrored bitmap is exactly the horizontal
mirror of `to_sdf` of the original. -/
theorem C6_hmirror_equivariant (cov : List ℕ) (w h : ℕ) (r : ℚ)
    (hlen : cov.length = w * h) (hbytes : BytesOK cov)
    (hdw : DimOK w) (hdh : DimOK h) (hw : 1 ≤ w) (hh : 1 ≤ h) (hr : 0 < r) :
    toSdf (hmirror cov w h) w h r =
      (toSdf cov w h r).map (fun out => hmirror out w h) := by
  obtain ⟨go, gi, hEq, hgol, hgil, hpix⟩ :=
    sdfGrids_char cov (by omega) hbytes hdw hdh hw hh
  obtain ⟨go', gi', hEq', hgol', hgil', hpix'⟩ :=
    sdfGrids_char (hmirror cov w h)
      (show w * h ≤ (hmirror cov w h).length by rw [hmirror_length])
      (hmirror_bytesOK hbytes w h) hdw hdh hw hh
  rw [toSdf, toSdf, hEq, hEq']
  simp only [Option.map_some']
  congr 1
  show (List.range (w * h)).map
      (fun i => combinePixel (go'.getD i 0) (gi'.getD i 0) r) =
    hmirror ((List.range (w * h)).map
      (fun i => combinePixel (go.getD i 0) (gi.getD i 0) r)) w h
  rw [hmirror]
  apply List.ext_getElem
  · simp only [List.length_map, List.length_range]
  · intro j h1 h2
    rw [List.length_map, List.length_range] at h1
    simp only [List.getElem_map, List.getElem_range]
    obtain ⟨hxw, hyh, hsplit⟩ := idx_split (by omega) h1
    have hx' : w - 1 - j % w < w := by omega
    have hmidx : j / w * w + (w - 1 - j % w) < w * h := idx_row_lt hyh hx'
    rw [getD_map_range_byte _ hmidx]
    conv_lhs => rw [show j = j / w * w + j % w from hsplit.symm]
    obtain ⟨hgoM, hgiM⟩ := hpix' (j % w) (j / w) hxw hyh
    rw [hgoM, hgiM]
    obtain ⟨hgoO, hgiO⟩ := hpix (w - 1 - j % w) (j / w) hx' hyh
    rw [hgoO, hgiO]
    rw [mirror_inf'_seed seedOuter cov hw hh hxw hyh,
      mirror_inf'_seed seedInner cov hw hh hxw hyh]

/-- C6, witness: the mirror relation on the 2×1 bitmap `[5, 7]`. -/
theorem C6_witness :
    toSdf (hmirror [5, 7] 2 1) 2 1 1 =
      (toSdf [5, 7] 2 1 1).map (fun out => hmirror out 2 1) :=
  C6_hmirror_equivariant [5, 7] 2 1 1 rfl
    (by intro b hb; fin_cases hb <;> norm_num)
    (by norm_num [DimOK]) (by norm_num [DimOK]) (by norm_num) (by norm_num)
    (by norm_num)

/-- C7: for a fixed coverage and dimensions and radii `0 < r1 < r2`, every
pixel whose output byte at radius `r1` is non-extreme (neither `0` nor
`255`) also has a non-extreme output byte at radius `r2`: a larger radius
never narrows the non-extreme band. -/
theorem C7_band_monotone (cov : List ℕ) (w h : ℕ) (r1 r2 : ℚ) (hr1 : 0 < r1)
    (hr12 : r1 < r2) (out1 out2 : List ℕ)
    (h1 : toSdf cov w h r1 = some out1) (h2 : toSdf cov w h r2 = some out2)
    (i : ℕ) (hi : i < w * h)
    (hmid : out1.getD i 0 ≠ 0 ∧ out1.getD i 0 ≠ 255) :
    out2.getD i 0 ≠ 0 ∧ out2.getD i 0 ≠ 255 := by
  rw [toSdf] at h1 h2
  rcases hgg : sdfGrids cov w h with _ | g
  · rw [hgg] at h1
    exact absurd h1 (by simp)
  · rw [hgg] at h1 h2
    simp only [Option.map_some'] at h1 h2
    injection h1 with h1
    injection h2 with h2
    rw [← h1] at hmid
    rw [← h2]
    rw [getD_map_range_byte _ hi] at hmid
    rw [getD_map_range_byte _ hi]
    rw [combinePixel_mid_iff] at hmid ⊢
    obtain ⟨hA, hB⟩ := hmid
    set D : ℝ := Real.sqrt ((g.1.getD i 0 : ℚ) : ℝ) -
      Real.sqrt ((g.2.getD i 0 : ℚ) : ℝ) with hD
    have hr1R : (0:ℝ) < ((r1 : ℚ) : ℝ) := by exact_mod_cast hr1
    have hr2R : (0:ℝ) < ((r2 : ℚ) : ℝ) := by exact_mod_cast lt_trans hr1 hr12
    have hr12R : ((r1 : ℚ) : ℝ) < ((r2 : ℚ) : ℝ) := by exact_mod_cast hr12
    have ha1 : D / ((r1 : ℚ) : ℝ) ≤ 1 / 2 - 1 / 255 := by linarith
    have ha2 : -(1 / 2 : ℝ) < D / ((r1 : ℚ) : ℝ) := by linarith
    have hs : D / ((r2 : ℚ) : ℝ) ≤ 1 / 2 - 1 / 255 ∧
        -(1 / 2 : ℝ) < D / ((r2 : ℚ) : ℝ) := by
      rcases le_or_lt 0 D with hDpos | hDneg
      · constructor
        · have hmono : D / ((r2 : ℚ) : ℝ) ≤ D / ((r1 : ℚ) : ℝ) := by
            rw [div_le_div_iff hr2R hr1R]
            nlinarith
          linarith
        · have hnn : (0:ℝ) ≤ D / ((r2 : ℚ) : ℝ) :=
            div_nonneg hDpos (le_of_lt hr2R)
          linarith
      · constructor
        · have hneg : D / ((r2 : ℚ) : ℝ) < 0 := div_neg_of_neg_of_pos hDneg hr2R
          linarith
        · have hmono : D / ((r1 : ℚ) : ℝ) ≤ D / ((r2 : ℚ) : ℝ) := by
            rw [div_le_div_iff hr1R hr2R]
            nlinarith
          linarith
    constructor
    · linarith [hs.1]
    · linarith [hs.2]

/-- C7, witness: the 1×1 bitmap `[128]`; at radius `1` the byte is `128`
(non-extreme), and at radius `2` it is `127`, still non-extreme. -/
theorem C7_witness :
    ([127] : List ℕ).getD 0 0 ≠ 0 ∧ ([127] : List ℕ).getD 0 0 ≠ 255 :=
  C7_band_monotone [128] 1 1 1 2 (by norm_num) (by norm_num) [128] [127]
    toSdf_gray_one toSdf_gray_two 0 (by norm_num) (by decide)

/-- C8: immediately after the seeding loop of `to_sdf`, a pixel whose
coverage byte is exactly `0` or exactly `255` has a zero seed on exactly one
of the two grids and the sentinel `INF = 1e20` on the other — never two
finite nonzero seeds. -/
theorem C8_seed_exclusive (cov : List ℕ) (w h : ℕ) (hcov : w * h ≤ cov.length)
    (i : ℕ) (hi : i < w * h) (hb : cov.getD i 0 = 0 ∨ cov.getD i 0 = 255) :
    ∃ go gi, seedLoop cov (w * h) 0 (List.replicate (w * h) 0)
        (List.replicate (w * h) 0) = some (go, gi) ∧
      ((go.getD i 0 = 0 ∧ gi.getD i 0 = INF) ∨
        (go.getD i 0 = INF ∧ gi.getD i 0 = 0)) := by
  obtain ⟨go, gi, hEq, _, _, hcont, _⟩ :=
    seedLoop_some cov (w * h) hcov (w * h) 0 (List.replicate (w * h) 0)
      (List.replicate (w * h) 0) (by omega) (List.length_replicate _ _)
      (List.length_replicate _ _)
  refine ⟨go, gi, hEq, ?_⟩
  obtain ⟨hgo, hgi⟩ := hcont i (by omega) hi
  rcases hb with hb | hb
  · right
    rw [hgo, hgi, hb, seedOuter_zero, seedInner_zero]
    exact ⟨rfl, rfl⟩
  · left
    rw [hgo, hgi, hb, seedOuter_255, seedInner_255]
    exact ⟨rfl, rfl⟩

/-- C8, witness: the seeding of `[0, 255]` at pixel `0`. -/
theorem C8_witness :
    ∃ go gi, seedLoop [0, 255] (2 * 1) 0 (List.replicate (2 * 1) 0)
        (List.replicate (2 * 1) 0) = some (go, gi) ∧
      ((go.getD 0 0 = 0 ∧ gi.getD 0 0 = INF) ∨
        (go.getD 0 0 = INF ∧ gi.getD 0 0 = 0)) :=
  C8_seed_exclusive [0, 255] 2 1 (by norm_num) 0 (by norm_num) (Or.inl rfl)

/-- C9 (amended): `to_sdf` allocates the scratch buffers once per call with
`f` of `max(width, height)` elements and `z` of `max(width, height) + 1`
elements, but `v` of `max(width, height) * 2` elements — twice the size the
claim states (`let mut v = vec![0; s * 2]` in the source). -/
theorem C9_scratch_sizes (w h : ℕ) :
    (scratchF w h).length = max w h ∧ (scratchZ w h).length = max w h + 1 ∧
      (scratchV w h).length = max w h * 2 := by
  refine ⟨?_, ?_, ?_⟩ <;> simp [scratchF, scratchZ, scratchV, scratchS]

/-- C9, counterexample: already at `width = 1`, `height = 2` the `v` buffer
has `4` elements, not `max(width, height) = 2` as the claim states. -/
theorem C9_counterexample : (scratchV 1 2).length ≠ max 1 2 := by
  norm_num [scratchV, scratchS, List.length_replicate]

/-- C10: `to_sdf` performs no input validation: whenever the coverage holds
at least `width * height` in-range bytes it returns normally — for every
radius, including zero and negative — with exactly `width * height` output
bytes, ignoring surplus coverage bytes; and it panics (returns `none`)
exactly when the coverage is shorter than `width * height`. -/
theorem C10_totality (cov : List ℕ) (w h : ℕ) (radius : ℚ)
    (hbytes : BytesOK cov) (hdw : DimOK w) (hdh : DimOK h) :
    ((toSdf cov w h radius).isSome = true ↔ w * h ≤ cov.length) ∧
    (∀ out, toSdf cov w h radius = some out → out.length = w * h) ∧
    toSdf cov w h radius = toSdf (cov.take (w * h)) w h radius := by
  refine ⟨⟨?_, ?_⟩, ?_, ?_⟩
  · intro hsome
    by_contra hlt
    push_neg at hlt
    rw [toSdf, sdfGrids_none cov hlt] at hsome
    simp at hsome
  · intro hle
    obtain ⟨go, gi, hEq, _, _⟩ := sdfGrids_isSome cov hle hbytes hdw hdh
    rw [toSdf, hEq]
    rfl
  · intro out hout
    exact toSdf_length hout
  · exact toSdf_take cov w h radius

/-- C10, witness: the oversized coverage `[3, 4]` for a 1×1 bitmap with the
degenerate radius `0`. -/
theorem C10_witness :
    (((toSdf [3, 4] 1 1 0).isSome = true ↔ 1 * 1 ≤ ([3, 4] : List ℕ).length) ∧
      (∀ out, toSdf [3, 4] 1 1 0 = some out → out.length = 1 * 1) ∧
      toSdf [3, 4] 1 1 0 = toSdf (([3, 4] : List ℕ).take (1 * 1)) 1 1 0) :=
  C10_totality [3, 4] 1 1 0 (by intro b hb; fin_cases hb <;> norm_num)
    (by norm_num [DimOK]) (by norm_num [DimOK])
